import Mathlib

/-!
Verification of the agent reasoning engine of the `simple-agentic-rag-system`
repository against its natural-language specification.

The Python sources under `src/src/agents/` are shallowly embedded here:

* `planner.py`   — `QueryPlanner.classify_query`, `QueryPlanner._determine_execution_order`
* `reflector.py` — `Reflector.reflect`, `Reflector.reflect_and_refine`,
                   `Reflector._parse_evaluation`, `SimpleReflector.reflect`
* `base_agent.py` — `BaseAgent.use_tool`, the `ToolResult` / `AgentResponse` data model
* `react_agent.py` — `ReActAgent.run`, `ReActAgent._parse_react_response`
* `tool.py`      — `ToolResult`, `RetrievalTool.execute`

Modelling conventions (stated once, used throughout):

* Python `float` values are modelled as `ℚ`.  All scores appearing in the
  claims are produced by exact arithmetic on literals such as `0.5`, `0.8`,
  so rational semantics is faithful for the properties proved here.
* Python strings are Lean `String`s; `len` is `String.length`.
* Exceptions are modelled with `Except`: a function that can raise returns
  `Except PyErr α`; a surrounding `try/except` is a `match` on that value.
* External collaborators (the reasoning model `llm_service.generate`, the
  embedding and vector-search services, injected tools and reflectors) are
  parameters of the embedded functions: an `llm` trace `ℕ → Except String String`
  gives the outcome of the n-th `generate` call (`.error` = the call raised),
  and tool/reflector behaviours are passed as functions.  Wall-clock readings
  of `time.time()` are passed in as explicit rational parameters where the
  source reads the clock; code that never reads the clock (e.g.
  `BaseAgent.use_tool`) cannot depend on them.
* Python `dict`s whose keys are dynamic are association lists; `dict`s with a
  fixed key set are Lean structures.  Dynamically typed (`Any`) payloads are
  modelled by the JSON-like value type `JsonV`.
-/

/-! ## Dynamic values and Python errors -/

/-- The non-finite floats Python's `json.loads` produces for the extended
literals `NaN`, `Infinity` and `-Infinity` (accepted by default). -/
inductive SpecialFloat where
  | nan : SpecialFloat
  | inf : SpecialFloat
  | ninf : SpecialFloat
  deriving Repr, DecidableEq

/-- JSON-like dynamic value, modelling Python `Any` payloads that flow through
`json.loads`, tool results and reflection records.  Finite floats are exact
rationals (`num`); the non-finite floats get their own constructor (`nnum`). -/
inductive JsonV where
  | null : JsonV
  | bool (b : Bool) : JsonV
  | num (q : ℚ) : JsonV
  | nnum (s : SpecialFloat) : JsonV
  | str (s : String) : JsonV
  | arr (xs : List JsonV) : JsonV
  | obj (fields : List (String × JsonV)) : JsonV
  deriving Repr

/-- Errors that the embedded Python code can raise past a function boundary. -/
inductive PyErr where
  /-- `AttributeError` (e.g. calling `.get` on `None`). -/
  | attributeError : PyErr
  /-- `TypeError` (e.g. comparing a non-number with `<`, unpacking a non-dict). -/
  | typeError : PyErr
  /-- `ZeroDivisionError`. -/
  | zeroDivisionError : PyErr
  /-- The repository's own `AgentError` (from `src.core.exceptions`), raised by
  `Reflector._get_evaluation`; it carries its message. -/
  | agentError (msg : String) : PyErr
  deriving Repr, DecidableEq

namespace JsonV

/-- Equality of dynamic values, decidable (needed to evaluate the embedded
code on concrete inputs). -/
def beq : JsonV → JsonV → Bool
  | .null, .null => true
  | .bool a, .bool b => a == b
  | .num a, .num b => a == b
  | .nnum .nan, .nnum _ => false
  | .nnum _, .nnum .nan => false
  | .nnum a, .nnum b => a == b
  | .str a, .str b => a == b
  | .arr xs, .arr ys => beqList xs ys
  | .obj xs, .obj ys => beqFields xs ys
  | _, _ => false
where
  beqList : List JsonV → List JsonV → Bool
    | [], [] => true
    | x :: xs, y :: ys => beq x y && beqList xs ys
    | _, _ => false
  beqFields : List (String × JsonV) → List (String × JsonV) → Bool
    | [], [] => true
    | (k, x) :: xs, (l, y) :: ys => k == l && beq x y && beqFields xs ys
    | _, _ => false

instance : BEq JsonV := ⟨beq⟩

/-- Python `dict.get(key, default)` on an `obj`. -/
def getD (fields : List (String × JsonV)) (key : String) (default : JsonV) : JsonV :=
  match fields.find? (fun kv => kv.1 == key) with
  | some kv => kv.2
  | none => default

/-- Python `dict.get(key)` / `key in dict` lookup on an `obj`'s field list. -/
def get? (fields : List (String × JsonV)) (key : String) : Option JsonV :=
  (fields.find? (fun kv => kv.1 == key)).map (·.2)

end JsonV

/-! ## Query planner: embedding of `src/src/agents/planner.py`

`QueryType`, `SubQuery`, `QueryPlanner.classify_query` and
`QueryPlanner._determine_execution_order` are translated below.
Python `word in query_lower` is a *substring* test, embedded as `strContains`.
-/

/-- `QueryType` enum from `planner.py`. -/
inductive QueryType where
  | SIMPLE | RECURSIVE | MULTI_PART | COMPARISON
  | AGGREGATION | REASONING | CALCULATION | UNKNOWN
  deriving DecidableEq, Repr

/-- `SubQuery` dataclass from `planner.py`. Ids are Python ints. -/
structure SubQuery where
  id : Int
  text : String
  dependencies : List Int
  tool_hint : Option String := none
  priority : Int := 0
  deriving DecidableEq, Repr

/-- Python `str.lower()`.  (Defined through `List Char` so that it evaluates
by kernel reduction; the queries and keywords involved are ASCII.) -/
def pyLower (s : String) : String :=
  ⟨s.toList.map Char.toLower⟩

/-- `cs` starts with `needle`. -/
def listStartsWith : List Char → List Char → Bool
  | [], _ => true
  | _ :: _, [] => false
  | c :: cs, d :: ds => c == d && listStartsWith cs ds

/-- `needle` occurs somewhere in `hay` (contiguously). -/
def listHasSub (needle : List Char) : List Char → Bool
  | [] => needle.isEmpty
  | c :: rest => listStartsWith needle (c :: rest) || listHasSub needle rest

/-- Python `needle in hay` substring test on strings. -/
def strContains (hay needle : String) : Bool :=
  listHasSub needle.toList hay.toList

/-- Keyword list of the `CALCULATION` branch of `classify_query`. -/
def calculationKeywords : List String :=
  ["calculate", "sum", "add", "multiply", "divide", "subtract",
   "total", "average", "count", "how many", "how much"]

/-- Keyword list of the `COMPARISON` branch of `classify_query`. -/
def comparisonKeywords : List String :=
  ["compare", "difference", "better", "worse", "vs", "versus",
   "between", "among", "contrast"]

/-- Keyword list of the `MULTI_PART` branch of `classify_query`. -/
def multiPartKeywords : List String :=
  ["and also", "also", "additionally", "besides", "furthermore",
   "what about", "how about"]

/-- Keyword list of the `RECURSIVE` branch of `classify_query`. -/
def recursiveKeywords : List String :=
  ["find all", "list all", "every", "each", "then", "after that",
   "next", "subsequently"]

/-- Keyword list of the `REASONING` branch of `classify_query`. -/
def reasoningKeywords : List String :=
  ["why", "explain", "reason", "because", "cause", "effect",
   "relationship", "how does", "how do"]

/-- `any(word in query_lower for word in kws)`. -/
def matchesAny (query : String) (kws : List String) : Bool :=
  kws.any (fun w => strContains (pyLower query) w)

/-- `QueryPlanner.classify_query` (`planner.py` lines 196-244): ordered
first-match cascade over the keyword sets. -/
def classify_query (query : String) : QueryType :=
  if matchesAny query calculationKeywords then .CALCULATION
  else if matchesAny query comparisonKeywords then .COMPARISON
  else if matchesAny query multiPartKeywords then .MULTI_PART
  else if matchesAny query recursiveKeywords then .RECURSIVE
  else if matchesAny query reasoningKeywords then .REASONING
  else .SIMPLE

/-- The dependency list the Python dict `graph = {sq.id: sq.dependencies}`
associates to `i`: the *last* sub-query with that id wins (dict overwrite). -/
def depsOf (sqs : List SubQuery) (i : Int) : List Int :=
  match sqs.reverse.find? (fun sq => sq.id == i) with
  | some sq => sq.dependencies
  | none => []

/-- Distinct elements of a list in first-occurrence order, with `seen` the
elements to drop: auxiliary for `dedupFirst`. -/
def dedupFirstAux (seen : List Int) : List Int → List Int
  | [] => []
  | x :: xs =>
      if x ∈ seen then dedupFirstAux seen xs
      else x :: dedupFirstAux (x :: seen) xs

/-- Distinct elements of `l` in first-occurrence order: the key sequence of a
Python dict built by inserting the elements of `l` in order. -/
def dedupFirst (l : List Int) : List Int :=
  dedupFirstAux [] l

/-- One round of the `while queue:` loop of `_determine_execution_order`
(Kahn's algorithm), fuel-indexed.  `deg` is the current `in_degree` table
(Python ints, so `Int`-valued), `queue` the pending queue, `order` the output
accumulated so far.  Each element of `ids` enters the queue at most once
(`kahnLoop_fuel_irrelevant` below), so fuel `ids.length` makes the fuel-free
Python `while` loop and this function agree on every input. -/
def kahnLoop (deps : Int → List Int) (ids : List Int) :
    ℕ → (Int → Int) → List Int → List Int → List Int
  | 0, _, _, order => order
  | _ + 1, _, [], order => order
  | fuel + 1, deg, current :: rest, order =>
      let pushed := ids.filter (fun i => decide (current ∈ deps i) && (deg i - 1 == 0))
      let deg' : Int → Int := fun i => if current ∈ deps i then deg i - 1 else deg i
      kahnLoop deps ids fuel deg' (rest ++ pushed) (order ++ [current])

/-- The `order` list computed by the Kahn loop of
`QueryPlanner._determine_execution_order`: in-degree of an id is the length of
its dependency list; the queue is seeded with the zero-in-degree ids in
declaration (dict key) order. -/
def kahnOrder (sqs : List SubQuery) : List Int :=
  kahnLoop (depsOf sqs) (dedupFirst (sqs.map (·.id)))
    (dedupFirst (sqs.map (·.id))).length
    (fun i => ((depsOf sqs i).length : Int))
    ((dedupFirst (sqs.map (·.id))).filter (fun i => ((depsOf sqs i).length : Int) == 0))
    []

/-- `QueryPlanner._determine_execution_order` (`planner.py` lines 345-384):
Kahn's algorithm, with fallback to declaration order when not every sub-query
was output (`if len(order) != len(sub_queries): return [sq.id for sq in sub_queries]`). -/
def determine_execution_order (sqs : List SubQuery) : List Int :=
  if (kahnOrder sqs).length ≠ sqs.length then sqs.map (·.id) else kahnOrder sqs

/-- The step relation of the declared dependency graph: `rel d j` holds when
`d` is a declared dependency of sub-query id `j`. -/
def DepRel (sqs : List SubQuery) (d j : Int) : Prop :=
  d ∈ depsOf sqs j

/-- The declared dependency graph has no (nonempty) dependency cycle. -/
def DepCycleFree (sqs : List SubQuery) : Prop :=
  ∀ a : Int, ¬ Relation.TransGen (DepRel sqs) a a

/-- `order` is a topological order relative to already-`seen` ids: every
element's declared dependencies occur in `seen` or earlier in `order`. -/
def TopoFrom (deps : Int → List Int) (seen : List Int) : List Int → Prop
  | [] => True
  | x :: xs => (∀ d ∈ deps x, d ∈ seen) ∧ TopoFrom deps (x :: seen) xs

/-! ### Planner lemmas -/

theorem mem_dedupFirstAux {seen l : List Int} {x : Int} :
    x ∈ dedupFirstAux seen l ↔ x ∈ l ∧ x ∉ seen := by
  induction l generalizing seen with
  | nil => simp [dedupFirstAux]
  | cons y ys ih =>
      by_cases hy : y ∈ seen
      · rw [dedupFirstAux, if_pos hy, ih]
        simp only [List.mem_cons]
        constructor
        · rintro ⟨h1, h2⟩; exact ⟨Or.inr h1, h2⟩
        · rintro ⟨h1 | h1, h2⟩
          · exact absurd (h1 ▸ hy) h2
          · exact ⟨h1, h2⟩
      · rw [dedupFirstAux, if_neg hy]
        simp only [List.mem_cons, ih]
        constructor
        · rintro (rfl | ⟨h1, h2⟩)
          · exact ⟨Or.inl rfl, hy⟩
          · exact ⟨Or.inr h1, fun hs => h2 (Or.inr hs)⟩
        · rintro ⟨h1 | h1, h2⟩
          · exact Or.inl h1
          · by_cases hxy : x = y
            · exact Or.inl hxy
            · refine Or.inr ⟨h1, fun hc => ?_⟩
              rcases hc with h | h
              · exact hxy h
              · exact h2 h

theorem nodup_dedupFirstAux (seen l : List Int) : (dedupFirstAux seen l).Nodup := by
  induction l generalizing seen with
  | nil => simp [dedupFirstAux]
  | cons y ys ih =>
      by_cases hy : y ∈ seen
      · rw [dedupFirstAux, if_pos hy]; exact ih seen
      · rw [dedupFirstAux, if_neg hy]
        rw [List.nodup_cons]
        exact ⟨fun hmem => (mem_dedupFirstAux.mp hmem).2 (List.mem_cons_self _ _),
               ih (y :: seen)⟩

theorem nodup_dedupFirst (l : List Int) : (dedupFirst l).Nodup :=
  nodup_dedupFirstAux [] l

theorem mem_dedupFirst {l : List Int} {x : Int} : x ∈ dedupFirst l ↔ x ∈ l := by
  simp [dedupFirst, mem_dedupFirstAux]

theorem dedupFirstAux_eq_self {seen l : List Int} (hl : l.Nodup)
    (hdisj : ∀ x ∈ l, x ∉ seen) : dedupFirstAux seen l = l := by
  induction l generalizing seen with
  | nil => rfl
  | cons y ys ih =>
      have hy : y ∉ seen := hdisj y (List.mem_cons_self _ _)
      simp only [dedupFirstAux, if_neg hy]
      congr 1
      refine ih hl.of_cons ?_
      intro x hx
      simp only [List.mem_cons, not_or]
      exact ⟨fun he => (List.nodup_cons.mp hl).1 (he ▸ hx),
             hdisj x (List.mem_cons_of_mem _ hx)⟩

theorem dedupFirst_eq_self {l : List Int} (hl : l.Nodup) : dedupFirst l = l :=
  dedupFirstAux_eq_self hl (by simp)

/-- With distinct ids, `depsOf` returns exactly the declared dependency list of
the sub-query with that id. -/
theorem depsOf_eq_dependencies {sqs : List SubQuery}
    (hids : (sqs.map (·.id)).Nodup) {sq : SubQuery} (hmem : sq ∈ sqs) :
    depsOf sqs sq.id = sq.dependencies := by
  have key : ∀ l : List SubQuery, (l.map (·.id)).Nodup → sq ∈ l →
      l.find? (fun y => y.id == sq.id) = some sq := by
    intro l
    induction l with
    | nil => intro _ h; cases h
    | cons y ys ih =>
        intro hnd hm
        rcases List.mem_cons.mp hm with he | ht
        · subst he; simp [List.find?]
        · have hne : y.id ≠ sq.id := by
            intro he
            have : sq.id ∈ ys.map (·.id) := List.mem_map_of_mem _ ht
            exact (List.nodup_cons.mp (by simpa using hnd)).1 (he ▸ this)
          have : (y.id == sq.id) = false := by simpa using hne
          simp only [List.find?, this]
          exact ih (List.nodup_cons.mp (by simpa using hnd)).2 ht
  have hrev : (sqs.reverse.map (·.id)).Nodup := by
    rw [List.map_reverse, List.nodup_reverse]; exact hids
  unfold depsOf
  rw [key sqs.reverse hrev (List.mem_reverse.mpr hmem)]

/-- A nonempty finite set of nodes in which every node has a declared
dependency inside the set yields a dependency cycle. -/
theorem exists_cycle_of_all_have_pred (deps : Int → List Int) (U : List Int)
    (hne : U ≠ []) (hstep : ∀ u ∈ U, ∃ d, d ∈ deps u ∧ d ∈ U) :
    ∃ a, Relation.TransGen (fun d j => d ∈ deps j) a a := by
  classical
  have hstep' : ∀ s : {x // x ∈ U.toFinset}, ∃ d, d ∈ deps s.1 ∧ d ∈ U :=
    fun s => hstep s.1 (List.mem_toFinset.mp s.2)
  choose fd hfd1 hfd2 using hstep'
  let f : {x // x ∈ U.toFinset} → {x // x ∈ U.toFinset} :=
    fun s => ⟨fd s, List.mem_toFinset.mpr (hfd2 s)⟩
  obtain ⟨u0, hu0⟩ : ∃ u, u ∈ U := by
    cases U with
    | nil => exact absurd rfl hne
    | cons a _ => exact ⟨a, List.mem_cons_self _ _⟩
  let s0 : {x // x ∈ U.toFinset} := ⟨u0, List.mem_toFinset.mpr hu0⟩
  have hchain : ∀ (k : ℕ) (s : {x // x ∈ U.toFinset}),
      Relation.TransGen (fun d j => d ∈ deps j) ((f^[k + 1]) s).1 s.1 := by
    intro k
    induction k with
    | zero =>
        intro s
        simpa using Relation.TransGen.single (hfd1 s)
    | succ n ih =>
        intro s
        have h1 : Relation.TransGen (fun d j => d ∈ deps j) ((f^[n + 1]) (f s)).1 (f s).1 :=
          ih (f s)
        have h2 : (f^[n + 1 + 1]) s = (f^[n + 1]) (f s) := by
          rw [Function.iterate_succ_apply]
        rw [h2]
        exact h1.trans (Relation.TransGen.single (hfd1 s))
  have hfin : ∃ m n : ℕ, m ≠ n ∧ (f^[m]) s0 = (f^[n]) s0 := by
    have := Finite.exists_ne_map_eq_of_infinite (fun n : ℕ => (f^[n]) s0)
    obtain ⟨m, n, hmn, he⟩ := this
    exact ⟨m, n, hmn, he⟩
  obtain ⟨m, n, hmn, he⟩ := hfin
  rcases hmn.lt_or_lt with hlt | hlt
  · obtain ⟨k, hk⟩ : ∃ k, n = (k + 1) + m := by
      refine ⟨n - m - 1, ?_⟩; omega
    refine ⟨((f^[m]) s0).1, ?_⟩
    have : (f^[n]) s0 = (f^[k + 1]) ((f^[m]) s0) := by
      rw [hk, Function.iterate_add_apply]
    have hcyc := hchain k ((f^[m]) s0)
    rw [← this, ← he] at hcyc
    exact hcyc
  · obtain ⟨k, hk⟩ : ∃ k, m = (k + 1) + n := by
      refine ⟨m - n - 1, ?_⟩; omega
    refine ⟨((f^[n]) s0).1, ?_⟩
    have : (f^[m]) s0 = (f^[k + 1]) ((f^[n]) s0) := by
      rw [hk, Function.iterate_add_apply]
    have hcyc := hchain k ((f^[n]) s0)
    rw [← this, he] at hcyc
    exact hcyc

/-- If the declared dependencies strictly decrease some rank function, the
dependency graph is cycle-free. -/
theorem depCycleFree_of_rank (sqs : List SubQuery) (rank : Int → ℕ)
    (h : ∀ j d, DepRel sqs d j → rank d < rank j) : DepCycleFree sqs := by
  have key : ∀ a b, Relation.TransGen (DepRel sqs) a b → rank a < rank b := by
    intro a b hab
    induction hab with
    | single h1 => exact h _ _ h1
    | tail _ h1 ih => exact lt_trans ih (h _ _ h1)
  intro a ha
  exact lt_irrefl _ (key a a ha)

/-! ### Kahn loop invariant lemmas -/

theorem filter_step_not_mem {l order : List Int} {c : Int} (hcl : c ∉ l) :
    l.filter (fun d => decide (d ∉ (order ++ [c]))) =
      l.filter (fun d => decide (d ∉ order)) := by
  apply List.filter_congr
  intro d hd
  have hdc : d ≠ c := fun he => hcl (he ▸ hd)
  simp [List.mem_append, hdc]

theorem filter_step_mem {l order : List Int} {c : Int}
    (hl : l.Nodup) (hc : c ∉ order) (hcl : c ∈ l) :
    (l.filter (fun d => decide (d ∉ order))).length =
      (l.filter (fun d => decide (d ∉ (order ++ [c])))).length + 1 := by
  induction l with
  | nil => cases hcl
  | cons x xs ih =>
      by_cases hxc : x = c
      · subst hxc
        have hnotin : x ∉ xs := (List.nodup_cons.mp hl).1
        have h1 : (decide (x ∉ order)) = true := by simpa using hc
        have h2 : (decide (x ∉ (order ++ [x]))) = false := by simp
        rw [List.filter_cons, List.filter_cons, h1, h2, filter_step_not_mem hnotin]
        simp
      · have hcxs : c ∈ xs := by
          rcases List.mem_cons.mp hcl with h | h
          · exact absurd h.symm hxc
          · exact h
        have heq : (decide (x ∉ (order ++ [c]))) = (decide (x ∉ order)) := by
          simp [List.mem_append, hxc]
        rw [List.filter_cons, List.filter_cons, heq]
        by_cases hko : x ∉ order
        · simp only [decide_eq_true hko, if_true, List.length_cons]
          rw [ih (List.nodup_cons.mp hl).2 hcxs]
        · simp only [decide_eq_false hko, if_false]
          exact ih (List.nodup_cons.mp hl).2 hcxs

theorem filter_none_iff {l order : List Int} :
    (l.filter (fun d => decide (d ∉ order))).length = 0 ↔ ∀ d ∈ l, d ∈ order := by
  rw [List.length_eq_zero]
  constructor
  · intro h d hd
    by_contra hno
    have hmem : d ∈ l.filter (fun d => decide (d ∉ order)) :=
      List.mem_filter.mpr ⟨hd, by simpa using hno⟩
    rw [h] at hmem
    cases hmem
  · intro h
    rw [List.eq_nil_iff_forall_not_mem]
    intro d hd
    rcases List.mem_filter.mp hd with ⟨h1, h2⟩
    have h2' : d ∉ order := by simpa using h2
    exact absurd (h d h1) h2'

theorem nodup_all_eq {l : List Int} {c : Int} (hnd : l.Nodup) (hc : c ∈ l)
    (hall : ∀ x ∈ l, x = c) : l = [c] := by
  cases l with
  | nil => cases hc
  | cons a as =>
      have ha : a = c := hall a (List.mem_cons_self _ _)
      cases as with
      | nil => rw [ha]
      | cons b bs =>
          have hb : b = c := hall b (by simp)
          have : a ∉ b :: bs := (List.nodup_cons.mp hnd).1
          exact absurd (by simp [ha, hb.symm] : a ∈ b :: bs) this

theorem filter_singleton_unique {l order : List Int} {c : Int}
    (hlen : (l.filter (fun d => decide (d ∉ order))).length = 1)
    (hcl : c ∈ l) (hc : c ∉ order) :
    ∀ d ∈ l, d ∉ order → d = c := by
  obtain ⟨a, ha⟩ := List.length_eq_one.mp hlen
  have hcf : c ∈ l.filter (fun d => decide (d ∉ order)) :=
    List.mem_filter.mpr ⟨hcl, by simpa using hc⟩
  rw [ha] at hcf
  have hca : c = a := by simpa using hcf
  intro d hd hdo
  have hdf : d ∈ l.filter (fun d => decide (d ∉ order)) :=
    List.mem_filter.mpr ⟨hd, by simpa using hdo⟩
  rw [ha] at hdf
  have : d = a := by simpa using hdf
  rw [this, ← hca]

theorem filter_eq_singleton {l order : List Int} {c : Int}
    (hl : l.Nodup) (hcl : c ∈ l) (hc : c ∉ order)
    (hall : ∀ d ∈ l, d ∉ order → d = c) :
    l.filter (fun d => decide (d ∉ order)) = [c] := by
  refine nodup_all_eq (hl.filter _) (List.mem_filter.mpr ⟨hcl, by simpa using hc⟩) ?_
  intro x hx
  rcases List.mem_filter.mp hx with ⟨h1, h2⟩
  exact hall x h1 (by simpa using h2)

theorem subset_of_nodup_of_length_le {l₁ l₂ : List Int} (h1 : l₁.Nodup) (h2 : l₂.Nodup)
    (hsub : l₁ ⊆ l₂) (hlen : l₂.length ≤ l₁.length) : l₂ ⊆ l₁ := by
  have hs : l₁.toFinset ⊆ l₂.toFinset := by
    intro x hx
    rw [List.mem_toFinset] at hx ⊢
    exact hsub hx
  have hc1 : l₁.toFinset.card = l₁.length := List.toFinset_card_of_nodup h1
  have hc2 : l₂.toFinset.card = l₂.length := List.toFinset_card_of_nodup h2
  have heq := Finset.eq_of_subset_of_card_le hs (by omega)
  intro x hx
  have : x ∈ l₁.toFinset := by
    rw [heq, List.mem_toFinset]
    exact hx
  rwa [List.mem_toFinset] at this

theorem topoFrom_append_one {deps : Int → List Int} {c : Int} :
    ∀ {seen order : List Int}, TopoFrom deps seen order →
      (∀ d ∈ deps c, d ∈ seen ∨ d ∈ order) → TopoFrom deps seen (order ++ [c]) := by
  intro seen order
  induction order generalizing seen with
  | nil =>
      intro _ hc
      refine ⟨fun d hd => ?_, trivial⟩
      rcases hc d hd with h | h
      · exact h
      · cases h
  | cons x xs ih =>
      intro h hc
      obtain ⟨h1, h2⟩ := h
      refine ⟨h1, ih h2 ?_⟩
      intro d hd
      rcases hc d hd with hs | hx
      · exact Or.inl (List.mem_cons_of_mem _ hs)
      · rcases List.mem_cons.mp hx with rfl | hx'
        · exact Or.inl (List.mem_cons_self _ _)
        · exact Or.inr hx'

theorem topoFrom_split {deps : Int → List Int} :
    ∀ {l1 : List Int} {seen order : List Int}, TopoFrom deps seen order →
      ∀ {j : Int} {l2 : List Int}, order = l1 ++ j :: l2 →
        ∀ d ∈ deps j, d ∈ seen ∨ d ∈ l1 := by
  intro l1
  induction l1 with
  | nil =>
      intro seen order h j l2 heq d hd
      subst heq
      exact Or.inl (h.1 d hd)
  | cons a as ih =>
      intro seen order h j l2 heq d hd
      subst heq
      obtain ⟨_, h2⟩ := h
      rcases ih h2 rfl d hd with hs | has
      · rcases List.mem_cons.mp hs with rfl | hs'
        · exact Or.inr (List.mem_cons_self _ _)
        · exact Or.inl hs'
      · exact Or.inr (List.mem_cons_of_mem _ has)

/-- Loop invariant of the `while queue:` loop of `_determine_execution_order`,
for a well-formed input (distinct ids, duplicate-free dependency lists). -/
structure KInv (deps : Int → List Int) (ids : List Int)
    (deg : Int → Int) (queue order : List Int) : Prop where
  deg_eq : ∀ i ∈ ids,
    deg i = (((deps i).filter (fun d => decide (d ∉ order))).length : Int)
  queue_sub : queue ⊆ ids
  order_sub : order ⊆ ids
  nodup : (order ++ queue).Nodup
  mem_iff : ∀ i ∈ ids, (i ∈ order ∨ i ∈ queue) ↔ (∀ d ∈ deps i, d ∈ order)
  topo : TopoFrom deps [] order

theorem KInv.step {deps : Int → List Int} {ids : List Int}
    (hids : ids.Nodup) (hdnodup : ∀ i ∈ ids, (deps i).Nodup)
    {deg : Int → Int} {current : Int} {rest order : List Int}
    (inv : KInv deps ids deg (current :: rest) order) :
    KInv deps ids
      (fun i => if current ∈ deps i then deg i - 1 else deg i)
      (rest ++ ids.filter (fun i => decide (current ∈ deps i) && (deg i - 1 == 0)))
      (order ++ [current]) := by
  have hcur_ids : current ∈ ids := inv.queue_sub (List.mem_cons_self _ _)
  have hdisj := (List.nodup_append.mp inv.nodup).2.2
  have hcur_not_order : current ∉ order :=
    fun h => hdisj h (List.mem_cons_self _ _)
  have hdeps_cur : ∀ d ∈ deps current, d ∈ order :=
    (inv.mem_iff current hcur_ids).mp (Or.inr (List.mem_cons_self _ _))
  have hpush : ∀ i, i ∈ ids.filter (fun i => decide (current ∈ deps i) && (deg i - 1 == 0)) ↔
      i ∈ ids ∧ current ∈ deps i ∧ deg i = 1 := by
    intro i
    rw [List.mem_filter, Bool.and_eq_true, decide_eq_true_iff, beq_iff_eq, Int.sub_eq_zero]
  have hdeg_zero : ∀ i ∈ ids, (deg i = 0 ↔ ∀ d ∈ deps i, d ∈ order) := by
    intro i hi
    rw [inv.deg_eq i hi]
    rw [show ((((deps i).filter (fun d => decide (d ∉ order))).length : Int) = 0 ↔
        ((deps i).filter (fun d => decide (d ∉ order))).length = 0) by exact_mod_cast Iff.rfl]
    exact filter_none_iff
  have hdeg_one : ∀ i ∈ ids, current ∈ deps i → deg i = 1 →
      ∀ d ∈ deps i, d ∉ order → d = current := by
    intro i hi hcd h1 d hd hdo
    rw [inv.deg_eq i hi] at h1
    have h1' : ((deps i).filter (fun d => decide (d ∉ order))).length = 1 := by
      exact_mod_cast h1
    exact filter_singleton_unique h1' hcd hcur_not_order d hd hdo
  have hdeg_one' : ∀ i ∈ ids, current ∈ deps i →
      (∀ d ∈ deps i, d ∉ order → d = current) → deg i = 1 := by
    intro i hi hcd hall
    rw [inv.deg_eq i hi,
        filter_eq_singleton (hdnodup i hi) hcd hcur_not_order hall]
    simp
  refine ⟨?_, ?_, ?_, ?_, ?_, ?_⟩
  · -- deg_eq
    intro i hi
    by_cases hcd : current ∈ deps i
    · rw [if_pos hcd, inv.deg_eq i hi,
          filter_step_mem (hdnodup i hi) hcur_not_order hcd]
      push_cast
      ring
    · rw [if_neg hcd, inv.deg_eq i hi, filter_step_not_mem hcd]
  · -- queue_sub
    intro x hx
    rcases List.mem_append.mp hx with h | h
    · exact inv.queue_sub (List.mem_cons_of_mem _ h)
    · exact (List.mem_filter.mp h).1
  · -- order_sub
    intro x hx
    rcases List.mem_append.mp hx with h | h
    · exact inv.order_sub h
    · rw [List.mem_singleton] at h
      exact h ▸ hcur_ids
  · -- nodup
    have base : (order ++ [current] ++ rest).Nodup := by
      have he : order ++ current :: rest = order ++ [current] ++ rest := by simp
      rw [← he]
      exact inv.nodup
    rw [List.nodup_append] at base
    obtain ⟨hA, hrest, hABdisj⟩ := base
    have hpushed_nodup : (ids.filter
        (fun i => decide (current ∈ deps i) && (deg i - 1 == 0))).Nodup :=
      hids.filter _
    have hmem_deg_zero : ∀ x, x ∈ order ∨ x ∈ current :: rest → x ∈ ids → deg x = 0 := by
      intro x hx hxi
      exact (hdeg_zero x hxi).mpr ((inv.mem_iff x hxi).mp hx)
    have hpush_disj : ∀ x, x ∈ ids.filter
        (fun i => decide (current ∈ deps i) && (deg i - 1 == 0)) →
        ¬ (x ∈ order ∨ x ∈ current :: rest) := by
      intro x hx hmem
      rcases (hpush x).mp hx with ⟨hxi, _, hdeg1⟩
      have := hmem_deg_zero x hmem hxi
      omega
    rw [List.nodup_append]
    refine ⟨hA, ?_, ?_⟩
    · rw [List.nodup_append]
      refine ⟨hrest, hpushed_nodup, ?_⟩
      intro x hx1 hx2
      exact hpush_disj x hx2 (Or.inr (List.mem_cons_of_mem _ hx1))
    · intro x hx1 hx2
      rcases List.mem_append.mp hx2 with h | h
      · -- x in rest
        rcases List.mem_append.mp hx1 with ho | hc
        · exact hABdisj hx1 h
        · rw [List.mem_singleton] at hc
          subst hc
          have := (List.nodup_cons.mp ((List.nodup_append.mp inv.nodup).2.1)).1
          exact this h
      · -- x in pushed
        apply hpush_disj x h
        rcases List.mem_append.mp hx1 with ho | hc
        · exact Or.inl ho
        · rw [List.mem_singleton] at hc
          exact Or.inr (hc ▸ List.mem_cons_self _ _)
  · -- mem_iff
    intro i hi
    constructor
    · intro hL
      have hcases : i ∈ order ∨ i = current ∨ i ∈ rest ∨ i ∈ ids.filter
          (fun i => decide (current ∈ deps i) && (deg i - 1 == 0)) := by
        rcases hL with h | h
        · rcases List.mem_append.mp h with h' | h'
          · exact Or.inl h'
          · rw [List.mem_singleton] at h'
            exact Or.inr (Or.inl h')
        · rcases List.mem_append.mp h with h' | h'
          · exact Or.inr (Or.inr (Or.inl h'))
          · exact Or.inr (Or.inr (Or.inr h'))
      rcases hcases with h | h | h | h
      · intro d hd
        exact List.mem_append.mpr (Or.inl ((inv.mem_iff i hi).mp (Or.inl h) d hd))
      · subst h
        intro d hd
        exact List.mem_append.mpr (Or.inl (hdeps_cur d hd))
      · intro d hd
        exact List.mem_append.mpr
          (Or.inl ((inv.mem_iff i hi).mp (Or.inr (List.mem_cons_of_mem _ h)) d hd))
      · rcases (hpush i).mp h with ⟨_, hcd, hdeg1⟩
        intro d hd
        by_cases hdo : d ∈ order
        · exact List.mem_append.mpr (Or.inl hdo)
        · have : d = current := hdeg_one i hi hcd hdeg1 d hd hdo
          exact List.mem_append.mpr (Or.inr (by simp [this]))
    · intro hR
      by_cases hio : i ∈ order
      · exact Or.inl (List.mem_append.mpr (Or.inl hio))
      by_cases hiq : i ∈ current :: rest
      · rcases List.mem_cons.mp hiq with rfl | hir
        · exact Or.inl (List.mem_append.mpr (Or.inr (by simp)))
        · exact Or.inr (List.mem_append.mpr (Or.inl hir))
      have hnotall : ¬ ∀ d ∈ deps i, d ∈ order := by
        intro hall
        rcases (inv.mem_iff i hi).mpr hall with h | h
        · exact hio h
        · exact hiq h
      have hcd : current ∈ deps i := by
        by_contra hnc
        apply hnotall
        intro d hd
        rcases List.mem_append.mp (hR d hd) with h | h
        · exact h
        · rw [List.mem_singleton] at h
          exact absurd (h ▸ hd) hnc
      have hall_c : ∀ d ∈ deps i, d ∉ order → d = current := by
        intro d hd hdo
        rcases List.mem_append.mp (hR d hd) with h | h
        · exact absurd h hdo
        · rwa [List.mem_singleton] at h
      have hdeg1 : deg i = 1 := hdeg_one' i hi hcd hall_c
      exact Or.inr (List.mem_append.mpr (Or.inr ((hpush i).mpr ⟨hi, hcd, hdeg1⟩)))
  · -- topo
    exact topoFrom_append_one inv.topo (fun d hd => Or.inr (hdeps_cur d hd))

/-- The loop invariant holds at the start of the Kahn loop. -/
theorem KInv.init {deps : Int → List Int} {ids : List Int} (hids : ids.Nodup) :
    KInv deps ids (fun i => ((deps i).length : Int))
      (ids.filter (fun i => ((deps i).length : Int) == 0)) [] := by
  refine ⟨?_, ?_, ?_, ?_, ?_, trivial⟩
  · intro i _
    have he : (deps i).filter (fun d => decide (d ∉ ([] : List Int))) = deps i := by
      apply List.filter_eq_self.mpr
      intro a _
      simp
    rw [he]
  · intro x hx
    exact (List.mem_filter.mp hx).1
  · intro x hx
    cases hx
  · rw [List.nil_append]
    exact hids.filter _
  · intro i hi
    constructor
    · rintro (h | h)
      · cases h
      · have hz := (List.mem_filter.mp h).2
        rw [beq_iff_eq] at hz
        have hlen : (deps i).length = 0 := by exact_mod_cast hz
        intro d hd
        rw [List.length_eq_zero.mp hlen] at hd
        cases hd
    · intro h
      have hnil : deps i = [] := by
        rw [List.eq_nil_iff_forall_not_mem]
        intro d hd
        cases h d hd
      refine Or.inr (List.mem_filter.mpr ⟨hi, ?_⟩)
      rw [hnil]
      simp

/-- Full correctness of the Kahn loop for a well-formed acyclic input:
the output is a duplicate-free topological ordering of all ids. -/
theorem kahn_go {deps : Int → List Int} {ids : List Int}
    (hids : ids.Nodup) (hdnodup : ∀ i ∈ ids, (deps i).Nodup)
    (hsub : ∀ i ∈ ids, ∀ d ∈ deps i, d ∈ ids)
    (hacyc : ∀ a : Int, ¬ Relation.TransGen (fun d j => d ∈ deps j) a a) :
    ∀ (fuel : ℕ) (deg : Int → Int) (queue order : List Int),
      KInv deps ids deg queue order →
      ids.length ≤ fuel + order.length →
      (kahnLoop deps ids fuel deg queue order).Nodup ∧
      (kahnLoop deps ids fuel deg queue order) ⊆ ids ∧
      ids ⊆ (kahnLoop deps ids fuel deg queue order) ∧
      TopoFrom deps [] (kahnLoop deps ids fuel deg queue order) := by
  intro fuel
  induction fuel with
  | zero =>
      intro deg queue order inv hlen
      simp only [kahnLoop]
      have hond : order.Nodup := (List.nodup_append.mp inv.nodup).1
      exact ⟨hond, inv.order_sub,
        subset_of_nodup_of_length_le hond hids inv.order_sub (by omega), inv.topo⟩
  | succ n ih =>
      intro deg queue order inv hlen
      cases queue with
      | nil =>
          simp only [kahnLoop]
          have hond : order.Nodup := (List.nodup_append.mp inv.nodup).1
          have hcover : ids ⊆ order := by
            intro x hx
            by_contra hxo
            have hxU : x ∈ ids.filter (fun j => decide (j ∉ order)) :=
              List.mem_filter.mpr ⟨hx, by simpa using hxo⟩
            have hUne : ids.filter (fun j => decide (j ∉ order)) ≠ [] :=
              List.ne_nil_of_mem hxU
            have hstep : ∀ u ∈ ids.filter (fun j => decide (j ∉ order)),
                ∃ d, d ∈ deps u ∧ d ∈ ids.filter (fun j => decide (j ∉ order)) := by
              intro u hu
              rcases List.mem_filter.mp hu with ⟨hui, hun⟩
              have hun' : u ∉ order := by simpa using hun
              have hnd : ¬ ∀ d ∈ deps u, d ∈ order := by
                intro hall
                rcases (inv.mem_iff u hui).mpr hall with h | h
                · exact hun' h
                · cases h
              push_neg at hnd
              obtain ⟨d, hd, hdo⟩ := hnd
              exact ⟨d, hd, List.mem_filter.mpr ⟨hsub u hui d hd, by simpa using hdo⟩⟩
            obtain ⟨a, ha⟩ := exists_cycle_of_all_have_pred deps _ hUne hstep
            exact hacyc a ha
          exact ⟨hond, inv.order_sub, hcover, inv.topo⟩
      | cons current rest =>
          simp only [kahnLoop]
          have inv' := KInv.step hids hdnodup inv
          have hlen' : ids.length ≤ n + (order ++ [current]).length := by
            simp only [List.length_append, List.length_singleton]
            omega
          exact ih _ _ _ inv' hlen'

example : classify_query "calculate the difference between 5 and 3" = .CALCULATION := by
  decide

example : determine_execution_order
    [⟨1, "a", [2, 2], none, 0⟩, ⟨2, "b", [], none, 0⟩] = [1, 2] := by decide

example : determine_execution_order
    [⟨1, "a", [2], none, 0⟩, ⟨2, "b", [1], none, 0⟩] = [1, 2] := by decide

example : determine_execution_order
    [⟨1, "a", [2], none, 0⟩, ⟨2, "b", [], none, 0⟩] = [2, 1] := by decide

/-- Cycle-freeness of the concrete 2-node acyclic graph `1 ← 2` used as a
well-formed witness input (id 1 has no dependencies, id 2 depends on 1). -/
theorem depCycleFree_chain2 :
    DepCycleFree [⟨1, "stepA", [], none, 0⟩, ⟨2, "stepB", [1], none, 0⟩] := by
  apply depCycleFree_of_rank _ (fun i => if i = 2 then 1 else 0)
  intro j d hd
  unfold DepRel at hd
  by_cases hj2 : j = 2
  · subst hj2
    rw [show depsOf [⟨1, "stepA", [], none, 0⟩, ⟨2, "stepB", [1], none, 0⟩] 2 = [1] from by
      decide] at hd
    rw [List.mem_singleton] at hd
    subst hd
    decide
  · by_cases hj1 : j = 1
    · subst hj1
      rw [show depsOf [⟨1, "stepA", [], none, 0⟩, ⟨2, "stepB", [1], none, 0⟩] 1 = [] from by
        decide] at hd
      cases hd
    · have h2 : ((2 : Int) == j) = false := beq_eq_false_iff_ne.mpr (fun h => hj2 h.symm)
      have h1 : ((1 : Int) == j) = false := beq_eq_false_iff_ne.mpr (fun h => hj1 h.symm)
      have hnil : depsOf [⟨1, "stepA", [], none, 0⟩, ⟨2, "stepB", [1], none, 0⟩] j = [] := by
        simp [depsOf, List.find?, h1, h2]
      rw [hnil] at hd
      cases hd

/-- Cycle-freeness of the concrete graph in which sub-query 1 declares the
*duplicated* dependency list `[2, 2]` and sub-query 2 has none: as a graph it
is acyclic (its only edges are `2 ← 1`). -/
theorem depCycleFree_dupDeps :
    DepCycleFree [⟨1, "a", [2, 2], none, 0⟩, ⟨2, "b", [], none, 0⟩] := by
  apply depCycleFree_of_rank _ (fun i => if i = 1 then 1 else 0)
  intro j d hd
  unfold DepRel at hd
  by_cases hj1 : j = 1
  · subst hj1
    rw [show depsOf [⟨1, "a", [2, 2], none, 0⟩, ⟨2, "b", [], none, 0⟩] 1 = [2, 2] from by
      decide] at hd
    have : d = 2 := by
      rcases List.mem_cons.mp hd with h | h
      · exact h
      · simpa using h
    subst this
    decide
  · by_cases hj2 : j = 2
    · subst hj2
      rw [show depsOf [⟨1, "a", [2, 2], none, 0⟩, ⟨2, "b", [], none, 0⟩] 2 = [] from by
        decide] at hd
      cases hd
    · have h2 : ((2 : Int) == j) = false := beq_eq_false_iff_ne.mpr (fun h => hj2 h.symm)
      have h1 : ((1 : Int) == j) = false := beq_eq_false_iff_ne.mpr (fun h => hj1 h.symm)
      have hnil : depsOf [⟨1, "a", [2, 2], none, 0⟩, ⟨2, "b", [], none, 0⟩] j = [] := by
        simp [depsOf, List.find?, h1, h2]
      rw [hnil] at hd
      cases hd

/-- **C5 (amended).** For a *well-formed* sub-query list — distinct ids, and
duplicate-free dependency lists that reference only declared ids — whose
declared dependency graph is acyclic, `_determine_execution_order` returns an
execution order that contains every sub-query id and places each sub-query
after all of its declared dependencies; and for the 2-node dependency cycle
(1 depends on 2, 2 depends on 1) it returns the declaration order `[1, 2]`
instead of raising.  (Without the well-formedness conditions the topological
guarantee fails: see the counterexample theorem.) -/
theorem determine_execution_order_topological :
    (∀ sqs : List SubQuery,
      (sqs.map (·.id)).Nodup →
      (∀ sq ∈ sqs, sq.dependencies.Nodup) →
      (∀ sq ∈ sqs, ∀ d ∈ sq.dependencies, d ∈ sqs.map (·.id)) →
      DepCycleFree sqs →
      (∀ sq ∈ sqs, sq.id ∈ determine_execution_order sqs) ∧
      (∀ l1 j l2, determine_execution_order sqs = l1 ++ j :: l2 →
          ∀ d ∈ depsOf sqs j, d ∈ l1)) ∧
    determine_execution_order [⟨1, "A", [2], none, 0⟩, ⟨2, "B", [1], none, 0⟩] = [1, 2] := by
  constructor
  · intro sqs h1 h2 h3 hacyc
    have hidseq : dedupFirst (sqs.map (·.id)) = sqs.map (·.id) := dedupFirst_eq_self h1
    have hids' : (dedupFirst (sqs.map (·.id))).Nodup := nodup_dedupFirst _
    have hdnodup : ∀ i ∈ dedupFirst (sqs.map (·.id)), (depsOf sqs i).Nodup := by
      intro i hi
      rw [hidseq] at hi
      rcases List.mem_map.mp hi with ⟨sq, hsq, hid⟩
      rw [← hid, depsOf_eq_dependencies h1 hsq]
      exact h2 sq hsq
    have hsubd : ∀ i ∈ dedupFirst (sqs.map (·.id)), ∀ d ∈ depsOf sqs i,
        d ∈ dedupFirst (sqs.map (·.id)) := by
      intro i hi d hd
      rw [hidseq] at hi ⊢
      rcases List.mem_map.mp hi with ⟨sq, hsq, hid⟩
      rw [← hid, depsOf_eq_dependencies h1 hsq] at hd
      exact h3 sq hsq d hd
    have hacyc' : ∀ a : Int, ¬ Relation.TransGen (fun d j => d ∈ depsOf sqs j) a a := hacyc
    obtain ⟨hnd, hsubO, hcov, htopo⟩ :=
      kahn_go hids' hdnodup hsubd hacyc'
        (dedupFirst (sqs.map (·.id))).length _ _ [] (KInv.init hids') (by simp)
    have hlen1 : (kahnOrder sqs).length ≤ (dedupFirst (sqs.map (·.id))).length :=
      (List.subperm_of_subset hnd hsubO).length_le
    have hlen2 : (dedupFirst (sqs.map (·.id))).length ≤ (kahnOrder sqs).length :=
      (List.subperm_of_subset hids' hcov).length_le
    have hlen3 : (dedupFirst (sqs.map (·.id))).length = sqs.length := by
      rw [hidseq, List.length_map]
    have hif : determine_execution_order sqs = kahnOrder sqs := by
      rw [determine_execution_order,
        if_neg (by omega : ¬ (kahnOrder sqs).length ≠ sqs.length)]
    constructor
    · intro sq hsq
      rw [hif]
      apply hcov
      rw [hidseq]
      exact List.mem_map_of_mem _ hsq
    · intro l1 j l2 heq d hd
      rw [hif] at heq
      rcases topoFrom_split htopo heq d hd with h | h
      · cases h
      · exact h
  · decide

/-- Witness for `determine_execution_order_topological`: its hypotheses hold
at the concrete well-formed acyclic input `[⟨1, no deps⟩, ⟨2, deps [1]⟩]`,
where the computed order indeed contains sub-query 1. -/
theorem determine_execution_order_topological_witness :
    (1 : Int) ∈ determine_execution_order
      [⟨1, "stepA", [], none, 0⟩, ⟨2, "stepB", [1], none, 0⟩] :=
  (determine_execution_order_topological.1
      [⟨1, "stepA", [], none, 0⟩, ⟨2, "stepB", [1], none, 0⟩]
      (by decide) (by decide) (by decide) depCycleFree_chain2).1
    ⟨1, "stepA", [], none, 0⟩ (by decide)

/-- **C5 counterexample.** The claim as stated — for *every* sub-query list
with an acyclic declared dependency graph, the returned execution order places
each sub-query after its declared dependencies — is false: with the duplicated
dependency list `[2, 2]`, the in-degree of sub-query 1 is 2 but is decremented
only once when 2 is popped, so Kahn's loop stalls and the code falls back to
declaration order `[1, 2]`, placing 1 *before* its declared dependency 2 even
though the graph is acyclic. -/
theorem determine_execution_order_claim_counterexample :
    ¬ (∀ sqs : List SubQuery, DepCycleFree sqs →
        ∀ l1 j l2, determine_execution_order sqs = l1 ++ j :: l2 →
          ∀ d ∈ depsOf sqs j, d ∈ l1) := by
  intro h
  have h2 := h [⟨1, "a", [2, 2], none, 0⟩, ⟨2, "b", [], none, 0⟩] depCycleFree_dupDeps
      [] 1 [2] (by decide) 2 (by decide)
  cases h2

/-- **C9.** `classify_query` tests its keyword sets in the fixed priority order
CALCULATION, COMPARISON, MULTI_PART, RECURSIVE, REASONING, SIMPLE, first match
winning; in particular `"calculate the difference between 5 and 3"` matches
both the calculation and the comparison keyword sets yet is classified
CALCULATION. -/
theorem classify_query_priority :
    (∀ q, matchesAny q calculationKeywords = true →
        classify_query q = QueryType.CALCULATION) ∧
    (∀ q, matchesAny q calculationKeywords = false →
        matchesAny q comparisonKeywords = true →
        classify_query q = QueryType.COMPARISON) ∧
    (∀ q, matchesAny q calculationKeywords = false →
        matchesAny q comparisonKeywords = false →
        matchesAny q multiPartKeywords = true →
        classify_query q = QueryType.MULTI_PART) ∧
    (∀ q, matchesAny q calculationKeywords = false →
        matchesAny q comparisonKeywords = false →
        matchesAny q multiPartKeywords = false →
        matchesAny q recursiveKeywords = true →
        classify_query q = QueryType.RECURSIVE) ∧
    (∀ q, matchesAny q calculationKeywords = false →
        matchesAny q comparisonKeywords = false →
        matchesAny q multiPartKeywords = false →
        matchesAny q recursiveKeywords = false →
        matchesAny q reasoningKeywords = true →
        classify_query q = QueryType.REASONING) ∧
    (∀ q, matchesAny q calculationKeywords = false →
        matchesAny q comparisonKeywords = false →
        matchesAny q multiPartKeywords = false →
        matchesAny q recursiveKeywords = false →
        matchesAny q reasoningKeywords = false →
        classify_query q = QueryType.SIMPLE) ∧
    (matchesAny "calculate the difference between 5 and 3" calculationKeywords = true ∧
     matchesAny "calculate the difference between 5 and 3" comparisonKeywords = true ∧
     classify_query "calculate the difference between 5 and 3" = QueryType.CALCULATION) := by
  refine ⟨?_, ?_, ?_, ?_, ?_, ?_, by decide, by decide, by decide⟩
  · intro q h1
    simp [classify_query, h1]
  · intro q h1 h2
    simp [classify_query, h1, h2]
  · intro q h1 h2 h3
    simp [classify_query, h1, h2, h3]
  · intro q h1 h2 h3 h4
    simp [classify_query, h1, h2, h3, h4]
  · intro q h1 h2 h3 h4 h5
    simp [classify_query, h1, h2, h3, h4, h5]
  · intro q h1 h2 h3 h4 h5
    simp [classify_query, h1, h2, h3, h4, h5]

/-- Witness for `classify_query_priority` at the concrete query `"sum of 2"`. -/
theorem classify_query_priority_witness :
    classify_query "sum of 2" = QueryType.CALCULATION :=
  classify_query_priority.1 "sum of 2" (by decide)

/-! ## JSON extraction: embedding of `json.loads` and the tolerant
`re.search(r'\{.*\}', ..., re.DOTALL)` extraction used by
`Reflector._parse_evaluation` (`reflector.py` lines 308-340). -/

/-- JSON whitespace skipping. -/
def jsonSkipWs (cs : List Char) : List Char :=
  cs.dropWhile (fun c => c == ' ' || c == '\t' || c == '\n' || c == '\r')

/-- Value of a hexadecimal digit. -/
def hexVal (c : Char) : Option ℕ :=
  if '0' ≤ c && c ≤ '9' then some (c.toNat - 48)
  else if 'a' ≤ c && c ≤ 'f' then some (c.toNat - 87)
  else if 'A' ≤ c && c ≤ 'F' then some (c.toNat - 55)
  else none

/-- Single-character JSON escapes. -/
def escChar (c : Char) : Option Char :=
  match c with
  | '"' => some '"'
  | '\\' => some '\\'
  | '/' => some '/'
  | 'n' => some '\n'
  | 't' => some '\t'
  | 'r' => some '\r'
  | 'b' => some (Char.ofNat 8)
  | 'f' => some (Char.ofNat 12)
  | _ => none

/-- JSON string body parser (after the opening quote), fuel-indexed; fuel one
more than the remaining input length always suffices since every step consumes
at least one character. -/
def parseJsonStringAux : ℕ → List Char → List Char → Option (String × List Char)
  | 0, _, _ => none
  | fuel + 1, acc, cs =>
      match cs with
      | [] => none
      | '"' :: rest => some (⟨acc.reverse⟩, rest)
      | '\\' :: 'u' :: a :: b :: c :: d :: rest =>
          match hexVal a, hexVal b, hexVal c, hexVal d with
          | some ha, some hb, some hc, some hd =>
              parseJsonStringAux fuel
                (Char.ofNat (((ha * 16 + hb) * 16 + hc) * 16 + hd) :: acc) rest
          | _, _, _, _ => none
      | '\\' :: e :: rest =>
          match escChar e with
          | some c => parseJsonStringAux fuel (c :: acc) rest
          | none => none
      | c :: rest => parseJsonStringAux fuel (c :: acc) rest

/-- Digit-prefix splitter: the decimal digits at the head of the input (as
values) and the remaining characters. -/
def splitDigits : List Char → (List ℕ × List Char)
  | [] => ([], [])
  | c :: rest =>
      if c.isDigit then
        let p := splitDigits rest
        ((c.toNat - 48) :: p.1, p.2)
      else ([], c :: rest)

/-- Decimal value of a digit list. -/
def digitsToNat (ds : List ℕ) : ℕ :=
  ds.foldl (fun acc d => acc * 10 + d) 0

/-- Exponent part of a JSON number (after `e`/`E`), applied to mantissa. -/
def parseExpPart (mant : ℚ) (cs : List Char) : Option (ℚ × List Char) :=
  let p := match cs with
    | '+' :: r => (false, r)
    | '-' :: r => (true, r)
    | _ => (false, cs)
  match splitDigits p.2 with
  | ([], _) => none
  | (d :: ds, r) =>
      let e := digitsToNat (d :: ds)
      some (if p.1 then mant / (10 : ℚ) ^ e else mant * (10 : ℚ) ^ e, r)

/-- JSON number parser: optional sign, integer part, optional fraction,
optional exponent; produces the exact rational value. -/
def parseJsonNumber (cs : List Char) : Option (JsonV × List Char) :=
  let sp := match cs with
    | '-' :: r => (true, r)
    | _ => (false, cs)
  match splitDigits sp.2 with
  | ([], _) => none
  | (d :: ds, r1) =>
      let ip : ℚ := (digitsToNat (d :: ds) : ℚ)
      let fracStep : Option (ℚ × List Char) :=
        match r1 with
        | '.' :: r2 =>
            match splitDigits r2 with
            | ([], _) => none
            | (f :: fs, r3) =>
                some (ip + (digitsToNat (f :: fs) : ℚ) / (10 : ℚ) ^ (f :: fs).length, r3)
        | _ => some (ip, r1)
      match fracStep with
      | none => none
      | some (mant, r3) =>
          let expStep : Option (ℚ × List Char) :=
            match r3 with
            | 'e' :: r4 => parseExpPart mant r4
            | 'E' :: r4 => parseExpPart mant r4
            | _ => some (mant, r3)
          match expStep with
          | none => none
          | some (v, r5) => some (.num (if sp.1 then -v else v), r5)

/-- One `dict[key] = value` assignment on an association list, as Python
`dict` does it: an existing key keeps its position and takes the new value,
a new key is appended. -/
def pyDictInsert (d : List (String × JsonV)) (k : String) (v : JsonV) :
    List (String × JsonV) :=
  if d.any (fun kv => kv.1 == k) then
    d.map (fun kv => if kv.1 == k then (kv.1, v) else kv)
  else d ++ [(k, v)]

/-- The Python `dict` built from JSON object members in source order:
repeated keys keep their first position but take their *last* value, since
`json.loads` assigns each member into a `dict` in turn. -/
def pyDict (ps : List (String × JsonV)) : List (String × JsonV) :=
  ps.foldl (fun d kv => pyDictInsert d kv.1 kv.2) []

/-- Recursive-descent JSON parser, fuel-indexed.  `mode 0` parses a value,
`mode 1` the elements of a (nonempty) array returning `.arr`, `mode 2` the
members of a (nonempty) object returning `.obj` in raw source order (the
`mode 0` object arm then applies `pyDict`, so every completed object has
Python `dict` key semantics).  Like Python's default `json.loads`, the
extended constants `NaN`, `Infinity` and `-Infinity` are accepted as values.
Each nested call is entered only after consuming at least one character, so
fuel `2·|input| + 2` is always sufficient. -/
def parseJ : ℕ → ℕ → List Char → Option (JsonV × List Char)
  | 0, _, _ => none
  | fuel + 1, 0, cs =>
      match jsonSkipWs cs with
      | 'n' :: 'u' :: 'l' :: 'l' :: rest => some (.null, rest)
      | 't' :: 'r' :: 'u' :: 'e' :: rest => some (.bool true, rest)
      | 'f' :: 'a' :: 'l' :: 's' :: 'e' :: rest => some (.bool false, rest)
      | 'N' :: 'a' :: 'N' :: rest => some (.nnum .nan, rest)
      | 'I' :: 'n' :: 'f' :: 'i' :: 'n' :: 'i' :: 't' :: 'y' :: rest =>
          some (.nnum .inf, rest)
      | '-' :: 'I' :: 'n' :: 'f' :: 'i' :: 'n' :: 'i' :: 't' :: 'y' :: rest =>
          some (.nnum .ninf, rest)
      | '"' :: rest =>
          (parseJsonStringAux (rest.length + 1) [] rest).map (fun p => (.str p.1, p.2))
      | '[' :: rest =>
          match jsonSkipWs rest with
          | ']' :: r2 => some (.arr [], r2)
          | r2 => parseJ fuel 1 r2
      | '{' :: rest =>
          match jsonSkipWs rest with
          | '}' :: r2 => some (.obj [], r2)
          | r2 =>
              match parseJ fuel 2 r2 with
              | some (.obj fs, r) => some (.obj (pyDict fs), r)
              | _ => none
      | cs' => parseJsonNumber cs'
  | fuel + 1, 1, cs => do
      let (v, r1) ← parseJ fuel 0 cs
      match jsonSkipWs r1 with
      | ',' :: r2 =>
          match ← parseJ fuel 1 r2 with
          | (.arr xs, r) => some (.arr (v :: xs), r)
          | _ => none
      | ']' :: r2 => some (.arr [v], r2)
      | _ => none
  | fuel + 1, 2, cs =>
      match jsonSkipWs cs with
      | '"' :: r0 => do
          let (key, r1) ← parseJsonStringAux (r0.length + 1) [] r0
          match jsonSkipWs r1 with
          | ':' :: r2 => do
              let (v, r3) ← parseJ fuel 0 r2
              match jsonSkipWs r3 with
              | ',' :: r4 =>
                  match ← parseJ fuel 2 r4 with
                  | (.obj fs, r) => some (.obj ((key, v) :: fs), r)
                  | _ => none
              | '}' :: r4 => some (.obj [(key, v)], r4)
              | _ => none
          | _ => none
      | _ => none
  | _ + 1, _ + 3, _ => none

/-- Python `json.loads`: parse one JSON value and reject trailing data. -/
def jsonLoads (s : String) : Option JsonV :=
  match parseJ (2 * s.length + 2) 0 s.toList with
  | some (v, rest) => if (jsonSkipWs rest).isEmpty then some v else none
  | none => none

/-- The greedy regex extraction `re.search(r'\{.*\}', text, re.DOTALL)`: the
segment from the first `'{'` to the last `'}'` after it, if any. -/
def extractBraced (s : String) : Option String :=
  let l1 := s.toList.dropWhile (fun c => c != '{')
  if l1.isEmpty then none
  else
    let l2 := (l1.reverse.dropWhile (fun c => c != '}')).reverse
    if l2.isEmpty then none else some ⟨l2⟩

/-- The JSON object (field list) tolerantly extracted from a model reply:
`some fields` exactly when `_parse_evaluation`'s `try` block succeeds. -/
def jsonObjOf (s : String) : Option (List (String × JsonV)) :=
  match (extractBraced s).bind jsonLoads with
  | some (.obj fields) => some fields
  | _ => none

/-! ## Reflection engine: embedding of `src/src/agents/reflector.py`

The reasoning model is a call trace `llm : ℕ → Except String String`: the
outcome of the n-th `llm_service.generate` call of the run (`.error msg` =
the call raised).  The prompt strings passed to `generate` are not modelled;
no claim depends on their content.
-/

/-- `ReflectionResult` dataclass.  Fields parsed from model JSON output are
dynamically typed in Python (`eval_data.get(...)` can return any JSON value),
so they are `JsonV` here; `should_refine` is always a real boolean. -/
structure ReflectionResult where
  overall_score : JsonV
  criterion_scores : JsonV
  feedback : JsonV
  issues : JsonV
  suggestions : JsonV
  should_refine : Bool
  deriving Repr

/-- `ReflectionResult.to_dict`. -/
def ReflectionResult.to_dict (r : ReflectionResult) : JsonV :=
  .obj [("overall_score", r.overall_score),
        ("criterion_scores", r.criterion_scores),
        ("feedback", r.feedback),
        ("issues", r.issues),
        ("suggestions", r.suggestions),
        ("should_refine", .bool r.should_refine)]

/-- `Reflector._parse_evaluation` (`reflector.py` lines 308-340): tolerant
extraction of the first-to-last brace segment, `json.loads`, then field
defaults; *any* failure inside the `try` (no braces, unparsable JSON, or a
non-dict JSON value whose `.get` raises) yields the fixed moderate default,
with `should_refine` provisionally `False` ("will be calculated later"). -/
def parse_evaluation (evaluation : String) : ReflectionResult :=
  match jsonObjOf evaluation with
  | some fields =>
      { overall_score := JsonV.getD fields "overall_score" (.num (1/2))
        criterion_scores := JsonV.getD fields "criterion_scores" (.obj [])
        feedback := JsonV.getD fields "feedback" (.str "")
        issues := JsonV.getD fields "issues" (.arr [])
        suggestions := JsonV.getD fields "suggestions" (.arr [])
        should_refine := false }
  | none =>
      { overall_score := .num (1/2)
        criterion_scores := .obj []
        feedback := .str "Could not evaluate answer automatically"
        issues := .arr []
        suggestions := .arr []
        should_refine := false }

/-- Python `<` between a dynamic value and the (finite float) threshold, as
evaluated at line 139 of `reflector.py`: finite numbers compare numerically;
a `bool` is an `int` in Python, so `True`/`False` compare as `1`/`0`; the
non-finite floats `nan` and `inf` are below no finite threshold while `-inf`
is below every one; any other operand type raises `TypeError`. -/
def pyLtNum (v : JsonV) (thr : ℚ) : Except PyErr Bool :=
  match v with
  | .num x => .ok (decide (x < thr))
  | .bool b => .ok (decide ((if b then (1 : ℚ) else 0) < thr))
  | .nnum .nan => .ok false
  | .nnum .inf => .ok false
  | .nnum .ninf => .ok true
  | _ => .error .typeError

/-- The `should_refine` recomputation of `Reflector.reflect` (line 139 of
`reflector.py`): `result.should_refine = result.overall_score < self.min_acceptable_score`,
with Python's `<` semantics (`pyLtNum`) on whatever value the model supplied
as `overall_score`. -/
def applyThreshold (result : ReflectionResult) (min_acceptable_score : ℚ) :
    Except PyErr ReflectionResult :=
  match pyLtNum result.overall_score min_acceptable_score with
  | .ok b => .ok { result with should_refine := b }
  | .error e => .error e

/-- `Reflector.reflect` (`reflector.py` lines 85-150) consuming the `k`-th
`generate` call: `_get_evaluation` re-raises a model failure as `AgentError`
("Reflection evaluation failed: ..."); on success the reply is parsed and
`should_refine` is recomputed against the threshold (`applyThreshold`).
The `query`/`answer`/`retrieved_docs` arguments only shape the prompt, which
is not modelled. -/
def reflect (llm : ℕ → Except String String) (k : ℕ) (min_acceptable_score : ℚ)
    (_query _answer : String) (_retrieved_docs : Option (List JsonV)) :
    Except PyErr ReflectionResult :=
  match llm k with
  | .error e => .error (.agentError ("Reflection evaluation failed: " ++ e))
  | .ok evaluation => applyThreshold (parse_evaluation evaluation) min_acceptable_score

/-- `Reflector._refine_answer` (`reflector.py` lines 342-377) consuming the
`k`-th `generate` call: returns the rewritten answer, or the current answer
unchanged if the model call raised (the `except` branch). -/
def refine_answer (llm : ℕ → Except String String) (k : ℕ)
    (_query _original_answer : String) (current_answer : String)
    (_reflection : ReflectionResult) : String :=
  match llm k with
  | .ok refined => refined
  | .error _ => current_answer

/-- The `while refinement_count < max_refinements:` loop of
`reflect_and_refine`, with `fuel = max_refinements - refinement_count`.
`k` is the index of the next `generate` call (each `reflect` consumes one
call, each `_refine_answer` one more); `cnt` counts the `_refine_answer`
calls issued so far — Python returns only the `(answer, reflection)` pair,
the count is returned alongside as an observation of the run. -/
def reflect_and_refine_go (llm : ℕ → Except String String) (thr : ℚ)
    (q a : String) (docs : Option (List JsonV)) :
    ℕ → String → ℕ → ℕ → Except PyErr (String × ReflectionResult × ℕ)
  | 0, cur, k, cnt =>
      (reflect llm k thr q cur docs).map (fun fin => (cur, fin, cnt))
  | fuel + 1, cur, k, cnt =>
      match reflect llm k thr q cur docs with
      | .error e => .error e
      | .ok refl =>
          if refl.should_refine then
            reflect_and_refine_go llm thr q a docs fuel
              (refine_answer llm (k + 1) q a cur refl) (k + 2) (cnt + 1)
          else .ok (cur, refl, cnt)

/-- `Reflector.reflect_and_refine` (`reflector.py` lines 152-225). -/
def reflect_and_refine (llm : ℕ → Except String String) (thr : ℚ)
    (q a : String) (docs : Option (List JsonV)) (max_refinements : ℕ) :
    Except PyErr (String × ReflectionResult × ℕ) :=
  reflect_and_refine_go llm thr q a docs max_refinements a 0 0

/-! ## `SimpleReflector.reflect` (`reflector.py` lines 388-470) -/

/-- Python truthiness of the `retrieved_docs` argument (`None` and `[]` are
falsy). -/
def docsTruthy (docs : Option (List JsonV)) : Bool :=
  match docs with
  | some (_ :: _) => true
  | _ => false

/-- Python `str.split()` (whitespace split, empty fields dropped). -/
def pyWords (s : String) : List String :=
  let step : Char → (List String × List Char) → (List String × List Char) := fun c p =>
    if c.isWhitespace then
      (if p.2.isEmpty then p.1 else (⟨p.2⟩ :: p.1), [])
    else (p.1, c :: p.2)
  let r := s.toList.foldr step ([], [])
  if r.2.isEmpty then r.1 else ⟨r.2⟩ :: r.1

/-- Python `str.split(sep)` for a single-character separator (keeps empty
fields, as `answer.split('.')` does). -/
def pySplitOn (sep : Char) (s : String) : List String :=
  let step : Char → List (List Char) → List (List Char) := fun c acc =>
    match acc with
    | cur :: rest => if c == sep then [] :: (cur :: rest) else (c :: cur) :: rest
    | [] => [[c]]
  (s.toList.foldr step [[]]).map (fun l => ⟨l⟩)

/-- Distinct elements of a word list in first-occurrence order (a Python
`set` of strings, exposing only membership and cardinality). -/
def dedupStrAux (seen : List String) : List String → List String
  | [] => []
  | x :: xs =>
      if x ∈ seen then dedupStrAux seen xs
      else x :: dedupStrAux (x :: seen) xs

/-- Entry point of `dedupStrAux`. -/
def dedupStr (l : List String) : List String :=
  dedupStrAux [] l

/-- Everything `SimpleReflector.reflect` does after the `completeness` score
is settled: evidence and clarity heuristics, overall average of the six
criterion scores (accuracy and logic stay 0.0), feedback banding, and the
`should_refine` decision against `min_acceptable_score`. -/
def simpleFinish (thr : ℚ) (answer : String) (docs : Option (List JsonV))
    (relevance completeness : ℚ) (issues12 suggestions12 : List String) :
    ReflectionResult :=
  let accuracy : ℚ := 0
  let logic : ℚ := 0
  let evidence : ℚ := if docsTruthy docs then 4/5 else 1/2
  let issues3 : List String :=
    if docsTruthy docs then [] else ["No documents were retrieved to support answer"]
  let sentences := pySplitOn '.' answer
  let clarity : ℚ := if sentences.length < 2 then 1/2 else 4/5
  let issues4 : List String :=
    if sentences.length < 2 then ["Answer is not well-structured"] else []
  let overall := (relevance + accuracy + completeness + clarity + evidence + logic) / 6
  let feedback :=
    if overall ≥ 4/5 then "Good quality answer"
    else if overall ≥ 3/5 then "Acceptable answer with minor issues"
    else "Answer needs significant improvement"
  { overall_score := .num overall
    criterion_scores := .obj
      [("relevance", .num relevance), ("accuracy", .num accuracy),
       ("completeness", .num completeness), ("clarity", .num clarity),
       ("evidence", .num evidence), ("logic", .num logic)]
    feedback := .str feedback
    issues := .arr ((issues12 ++ issues3 ++ issues4).map .str)
    suggestions := .arr (suggestions12.map .str)
    should_refine := decide (overall < thr) }

/-- `SimpleReflector.reflect`: keyword-overlap relevance, length-based
completeness (raising `ZeroDivisionError` on an empty query when the answer
is not "too short"), then `simpleFinish`.  `thr` is the inherited
`min_acceptable_score`. -/
def simple_reflect (thr : ℚ) (query answer : String)
    (docs : Option (List JsonV)) : Except PyErr ReflectionResult :=
  let query_words := dedupStr (pyWords (pyLower query))
  let answer_words := dedupStr (pyWords (pyLower answer))
  let overlap : ℚ :=
    ((query_words.filter (fun w => decide (w ∈ answer_words))).length : ℚ) /
      ((max query_words.length 1 : ℕ) : ℚ)
  let relevance : ℚ := min (overlap + 3/10) 1
  let issues1 : List String :=
    if overlap < 3/10 then ["Answer doesn't directly address the query"] else []
  let suggestions1 : List String :=
    if overlap < 3/10 then ["Ensure answer directly responds to the question"] else []
  if answer.length < query.length * 2 then
    .ok (simpleFinish thr answer docs relevance (2/5)
      (issues1 ++ ["Answer seems too short"])
      (suggestions1 ++ ["Provide more detailed explanation"]))
  else if query.length = 0 then
    .error .zeroDivisionError
  else
    .ok (simpleFinish thr answer docs relevance
      (min ((answer.length : ℚ) / ((query.length : ℚ) * 10)) 1) issues1 suggestions1)

/-! ### Reflection engine theorems -/

/-- **C4 (amended).** `Reflector.reflect` is fail-open only for *parse*
failures: when no JSON object can be extracted from the model reply it
returns the moderate default with `overall_score = 0.5` — but `should_refine`
is then recomputed as `overall_score < min_acceptable_score`, which is *true*
at the default 0.7 threshold, not false; and when the evaluation model call
itself raises, `reflect` raises `AgentError` instead of returning a result. -/
theorem reflect_fail_modes :
    (∀ (llm : ℕ → Except String String) (k : ℕ) (thr : ℚ) (q a : String)
        (docs : Option (List JsonV)) (msg : String),
      llm k = .error msg →
      reflect llm k thr q a docs =
        .error (.agentError ("Reflection evaluation failed: " ++ msg))) ∧
    (∀ (llm : ℕ → Except String String) (k : ℕ) (thr : ℚ) (q a : String)
        (docs : Option (List JsonV)) (s : String),
      llm k = .ok s → jsonObjOf s = none →
      reflect llm k thr q a docs = .ok
        { overall_score := .num (1/2), criterion_scores := .obj [],
          feedback := .str "Could not evaluate answer automatically",
          issues := .arr [], suggestions := .arr [],
          should_refine := decide ((1/2 : ℚ) < thr) }) := by
  constructor
  · intro llm k thr q a docs msg h
    simp [reflect, h]
  · intro llm k thr q a docs s h hparse
    simp [reflect, h, parse_evaluation, hparse, applyThreshold, pyLtNum]

/-- Witness for `reflect_fail_modes`: a model call that raises becomes an
`AgentError`, and reflecting with an unparsable reply at the default 0.7
threshold marks the answer for refinement. -/
theorem reflect_fail_modes_witness :
    reflect (fun _ => .error "model down") 0 (7/10) "q" "a" none =
      .error (.agentError "Reflection evaluation failed: model down") ∧
    reflect (fun _ => .ok "no json here") 0 (7/10) "q" "a" none = .ok
      { overall_score := .num (1/2), criterion_scores := .obj [],
        feedback := .str "Could not evaluate answer automatically",
        issues := .arr [], suggestions := .arr [],
        should_refine := decide ((1/2 : ℚ) < 7/10) } :=
  ⟨reflect_fail_modes.1 (fun _ => .error "model down") 0 (7/10) "q" "a" none
      "model down" rfl,
   reflect_fail_modes.2 (fun _ => .ok "no json here") 0 (7/10) "q" "a" none
      "no json here" rfl rfl⟩

/-- **C4 counterexample.** The claim "`reflect` returns rather than raising;
on model failure or parse failure the result is the neutral default with
`should_refine = false`" is false on both counts: a raising model call makes
`reflect` raise `AgentError`, and after a parse failure at the default 0.7
threshold the returned default has `should_refine = true` (0.5 < 0.7). -/
theorem reflect_claim_counterexample :
    reflect (fun _ => .error "connection refused") 0 (7/10) "q" "a" none =
      .error (.agentError "Reflection evaluation failed: connection refused") ∧
    ∃ r, reflect (fun _ => .ok "no json here") 0 (7/10) "q" "a" none = .ok r ∧
      r.overall_score = .num (1/2) ∧ r.should_refine = true := by
  refine ⟨rfl, ⟨_, rfl, rfl, ?_⟩⟩
  show decide ((1/2 : ℚ) < 7/10) = true
  rw [decide_eq_true_eq]
  norm_num

/-- **C7.** Both reflectors derive `should_refine` from the parsed score,
never from the model output: for every result they return, `should_refine`
is exactly the Python comparison `overall_score < min_acceptable_score`
(`pyLtNum`: finite numbers compare numerically, a boolean score compares as
the integer 0 or 1, the non-finite floats compare without raising, and any
other score type raises `TypeError`, so no result is returned for it) — in
particular the flag is `false` when the score *equals* the threshold, and a
`"should_refine"` field in the model reply is ignored. -/
theorem should_refine_matches_threshold :
    (∀ (llm : ℕ → Except String String) (k : ℕ) (thr : ℚ) (q a : String)
        (docs : Option (List JsonV)) (r : ReflectionResult),
      reflect llm k thr q a docs = .ok r →
      pyLtNum r.overall_score thr = .ok r.should_refine) ∧
    (∀ (thr : ℚ) (q a : String) (docs : Option (List JsonV)) (r : ReflectionResult),
      simple_reflect thr q a docs = .ok r →
      pyLtNum r.overall_score thr = .ok r.should_refine) ∧
    (∀ (llm : ℕ → Except String String) (k : ℕ) (thr : ℚ) (q a : String)
        (docs : Option (List JsonV)) (r : ReflectionResult),
      reflect llm k thr q a docs = .ok r → r.overall_score = .num thr →
      r.should_refine = false) := by
  have key : ∀ (llm : ℕ → Except String String) (k : ℕ) (thr : ℚ) (q a : String)
      (docs : Option (List JsonV)) (r : ReflectionResult),
      reflect llm k thr q a docs = .ok r →
      pyLtNum r.overall_score thr = .ok r.should_refine := by
    intro llm k thr q a docs r h
    unfold reflect at h
    split at h
    · cases h
    · unfold applyThreshold at h
      split at h
      next b heq =>
        cases h
        exact heq
      next => cases h
  refine ⟨key, ?_, ?_⟩
  · intro thr q a docs r h
    unfold simple_reflect at h
    split at h
    · cases h
      rfl
    · split at h
      · cases h
      · cases h
        rfl
  · intro llm k thr q a docs r h hsc
    have hk := key llm k thr q a docs r h
    rw [hsc] at hk
    have hk2 : (Except.ok (decide (thr < thr)) : Except PyErr Bool)
        = .ok r.should_refine := hk
    have hb : decide (thr < thr) = r.should_refine := by injection hk2
    rw [← hb]
    exact decide_eq_false (lt_irrefl thr)

/-- Witness for `should_refine_matches_threshold`: a model reply that itself
asserts `"should_refine": true` still gets the computed comparison flag; and
a reply whose `overall_score` is the boolean `true` is returned normally
(Python `bool` is an `int`, so `True < 0.7` is `False`), with the flag
`false` at the default 0.7 threshold. -/
theorem should_refine_matches_threshold_witness :
    (∃ r, reflect (fun _ => .ok "\x7b\"overall_score\": 0.9, \"should_refine\": true\x7d")
        0 (7/10) "q" "a" none = .ok r ∧
      pyLtNum r.overall_score (7/10) = .ok r.should_refine) ∧
    (∃ r, reflect (fun _ => .ok "\x7b\"overall_score\": true\x7d")
        0 (7/10) "q" "a" none = .ok r ∧
      pyLtNum r.overall_score (7/10) = .ok r.should_refine ∧
      r.should_refine = false) :=
  ⟨⟨_, rfl, should_refine_matches_threshold.1
      (fun _ => .ok "\x7b\"overall_score\": 0.9, \"should_refine\": true\x7d")
      0 (7/10) "q" "a" none _ rfl⟩,
   ⟨_, rfl, should_refine_matches_threshold.1
      (fun _ => .ok "\x7b\"overall_score\": true\x7d")
      0 (7/10) "q" "a" none _ rfl,
    by
      show decide ((1 : ℚ) < 7/10) = false
      exact decide_eq_false (by norm_num)⟩⟩

/-- The post-completeness assembly of `SimpleReflector.reflect` always scores
at most 3/5 when relevance and completeness are capped at 1 (accuracy and
logic stay 0, clarity and evidence are at most 4/5), and at the default 0.7
threshold it always requests refinement. -/
theorem simpleFinish_bound (answer : String) (docs : Option (List JsonV))
    (relevance completeness : ℚ) (issues sugg : List String)
    (hrel : relevance ≤ 1) (hcomp : completeness ≤ 1) :
    ∃ x : ℚ,
      (simpleFinish (7/10) answer docs relevance completeness issues sugg).overall_score
        = .num x ∧ x ≤ 3/5 ∧
      (simpleFinish (7/10) answer docs relevance completeness issues sugg).should_refine
        = true := by
  unfold simpleFinish
  cases hd : docsTruthy docs <;> by_cases hs : (pySplitOn '.' answer).length < 2 <;>
    · simp only [hd, hs, if_true, if_false, ite_true, ite_false, Bool.false_eq_true,
        if_neg, if_pos]
      refine ⟨_, rfl, ?_, ?_⟩
      · linarith
      · show decide _ = true
        rw [decide_eq_true_eq]
        linarith

/-- **C10.** Whenever `SimpleReflector.reflect` returns a result (it raises
`ZeroDivisionError` on an empty query with a not-"too short" answer, and only
then), the overall score is at most 0.6: accuracy and logic are always 0.0,
clarity and evidence at most 0.8, relevance and completeness at most 1.0, so
the six-way average is ≤ 3.6/6.  Consequently, at the default acceptance
threshold of 0.7, `should_refine` is always `true`. -/
theorem simple_reflect_always_refines :
    ∀ (query answer : String) (docs : Option (List JsonV)) (r : ReflectionResult),
      simple_reflect (7/10) query answer docs = .ok r →
      ∃ x : ℚ, r.overall_score = .num x ∧ x ≤ 3/5 ∧ r.should_refine = true := by
  intro query answer docs r h
  unfold simple_reflect at h
  split at h
  · cases h
    exact simpleFinish_bound _ _ _ _ _ _ (min_le_right _ _) (by norm_num)
  · split at h
    · cases h
    · cases h
      exact simpleFinish_bound _ _ _ _ _ _ (min_le_right _ _) (min_le_right _ _)

/-- Witness for `simple_reflect_always_refines` at the concrete query `"hi"`
with the empty answer and no retrieved documents. -/
theorem simple_reflect_always_refines_witness :
    ∃ r, simple_reflect (7/10) "hi" "" none = .ok r ∧
      ∃ x : ℚ, r.overall_score = .num x ∧ x ≤ 3/5 ∧ r.should_refine = true :=
  ⟨_, rfl, simple_reflect_always_refines "hi" "" none _ rfl⟩

/-- Behaviour of the refinement loop `reflect_and_refine_go`: the number of
`_refine_answer` calls grows by at most the remaining fuel, and the returned
reflection is the result of a `reflect` call on the *returned* answer at some
later trace index (at most two calls per remaining round). -/
theorem reflect_and_refine_go_spec (llm : ℕ → Except String String) (thr : ℚ)
    (q a : String) (docs : Option (List JsonV)) :
    ∀ (fuel : ℕ) (cur : String) (k cnt0 : ℕ) (ans : String)
      (refl : ReflectionResult) (cnt : ℕ),
      reflect_and_refine_go llm thr q a docs fuel cur k cnt0 = .ok (ans, refl, cnt) →
      cnt0 ≤ cnt ∧ cnt ≤ cnt0 + fuel ∧
      ∃ k', k ≤ k' ∧ k' ≤ k + 2 * fuel ∧ reflect llm k' thr q ans docs = .ok refl := by
  intro fuel
  induction fuel with
  | zero =>
      intro cur k cnt0 ans refl cnt h
      rw [reflect_and_refine_go] at h
      cases hre : reflect llm k thr q cur docs with
      | error e =>
          rw [hre] at h
          cases h
      | ok fin =>
          rw [hre] at h
          simp only [Except.map] at h
          cases h
          exact ⟨le_refl _, by omega, k, le_refl _, by omega, hre⟩
  | succ n ih =>
      intro cur k cnt0 ans refl cnt h
      rw [reflect_and_refine_go] at h
      split at h
      next e heq => cases h
      next refl0 heq =>
        split at h
        next hsr =>
          obtain ⟨hc0, hcnt, k', hk1, hk2, hrefl⟩ := ih _ _ _ _ _ _ h
          exact ⟨by omega, by omega, k', by omega, by omega, hrefl⟩
        next hsr =>
          cases h
          exact ⟨le_refl _, by omega, k, le_refl _, by omega, heq⟩

/-- **C6.** `reflect_and_refine` issues at most `max_refinements` rewrite
calls; it returns the initial answer with its first reflection when that
reflection does not request refinement; and the returned final reflection is
itself the output of a `reflect` call on the *returned* answer — a fresh
evaluation from the call trace, never a value cached from an earlier
candidate. -/
theorem reflect_and_refine_spec :
    ∀ (llm : ℕ → Except String String) (thr : ℚ) (q a : String)
      (docs : Option (List JsonV)) (maxR : ℕ) (ans : String)
      (refl : ReflectionResult) (cnt : ℕ),
      reflect_and_refine llm thr q a docs maxR = .ok (ans, refl, cnt) →
      cnt ≤ maxR ∧
      (∃ k', k' ≤ 2 * maxR ∧ reflect llm k' thr q ans docs = .ok refl) ∧
      (∀ r0, reflect llm 0 thr q a docs = .ok r0 → r0.should_refine = false →
        ans = a ∧ refl = r0 ∧ cnt = 0) := by
  intro llm thr q a docs maxR ans refl cnt h
  obtain ⟨_, hc, k', hk1, hk2, hr⟩ :=
    reflect_and_refine_go_spec llm thr q a docs maxR a 0 0 ans refl cnt h
  refine ⟨by omega, ⟨k', by omega, hr⟩, ?_⟩
  intro r0 h0 hf
  cases maxR with
  | zero =>
      rw [reflect_and_refine, reflect_and_refine_go, h0] at h
      simp only [Except.map] at h
      cases h
      exact ⟨rfl, rfl, rfl⟩
  | succ n =>
      rw [reflect_and_refine, reflect_and_refine_go] at h
      split at h
      next e heq =>
          rw [h0] at heq
          cases heq
      next refl0 heq =>
          rw [heq] at h0
          have hre : refl0 = r0 := by injection h0
          subst hre
          split at h
          next hsr =>
              rw [hf] at hsr
              cases hsr
          next hsr =>
              cases h
              exact ⟨rfl, rfl, rfl⟩

/-- Witness for `reflect_and_refine_spec`: with a model trace whose first
evaluation reports an (integer) score of 2 against threshold 1, the loop
returns immediately with zero rewrite calls. -/
theorem reflect_and_refine_spec_witness :
    ∃ (ans : String) (refl : ReflectionResult) (cnt : ℕ),
      reflect_and_refine (fun _ => .ok "\x7b\"overall_score\": 2\x7d") 1 "q" "a" none 2
        = .ok (ans, refl, cnt) ∧ cnt ≤ 2 :=
  ⟨_, _, _, rfl,
    (reflect_and_refine_spec (fun _ => .ok "\x7b\"overall_score\": 2\x7d") 1 "q" "a" none 2
      _ _ _ rfl).1⟩

/-! ## Tool dispatch: embedding of `ToolResult` (`tool.py` lines 28-57) and
`BaseAgent.use_tool` (`base_agent.py` lines 130-180). -/

/-- `ToolResult` dataclass.  `data` is a Python `Any` (`None` is `.null`);
`error` and `metadata` default to `None`; `execution_time` defaults to `0.0`
and is *never set* by `use_tool` or by the built-in tools (which record
elapsed time in `metadata["execution_time"]` instead). -/
structure ToolResult where
  success : Bool
  data : JsonV
  error : Option String := none
  metadata : Option (List (String × JsonV)) := none
  execution_time : ℚ := 0
  deriving Repr

/-- The observable behaviour of one tool `execute` call as a function of the
keyword arguments: either it returns a `ToolResult` or it raises (the string
is `str(e)`).  `elapsed` is the wall-clock duration the call consumed before
returning or raising — an observation of the run; `use_tool` contains no
`time.time()` call, so its translation below cannot depend on it. -/
structure ToolCallOutcome where
  outcome : Except String ToolResult
  elapsed : ℚ
  deriving Repr

/-- A registered tool: its per-call behaviour. -/
def ToolBehavior : Type := JsonV → ToolCallOutcome

/-- `BaseAgent.use_tool` (`base_agent.py` lines 130-180): unknown names yield
a failed "not found" `ToolResult`; a raising `execute` is caught and turned
into `ToolResult(success=False, data=None, error=str(e))` — all other fields
keep their dataclass defaults. -/
def use_tool (tools : List (String × ToolBehavior)) (tool_name : String)
    (kwargs : JsonV) : ToolResult :=
  match tools.find? (fun t => t.1 == tool_name) with
  | none =>
      { success := false, data := .null,
        error := some ("Tool '" ++ tool_name ++ "' not found") }
  | some t =>
      match (t.2 kwargs).outcome with
      | .ok result => result
      | .error e => { success := false, data := .null, error := some e }

/-- **C8 (amended).** When the dispatched tool's `execute` raises, `use_tool`
catches the exception and returns a failed `ToolResult` with the stringified
error — it never propagates — but the returned `execution_time` is the
dataclass default `0.0` for *every* behaviour of the tool (`use_tool`
performs no time measurement), not the elapsed time up to the failure
point. -/
theorem use_tool_catches_exceptions :
    ∀ (tools : List (String × ToolBehavior)) (tool_name : String) (kwargs : JsonV)
      (p : String × ToolBehavior) (msg : String),
      tools.find? (fun t => t.1 == tool_name) = some p →
      (p.2 kwargs).outcome = .error msg →
      use_tool tools tool_name kwargs =
        { success := false, data := .null, error := some msg,
          metadata := none, execution_time := 0 } := by
  intro tools tool_name kwargs p msg hfind houtcome
  unfold use_tool
  rw [hfind]
  simp [houtcome]

/-- Witness for `use_tool_catches_exceptions` at a concrete registry with a
raising tool. -/
theorem use_tool_catches_exceptions_witness :
    use_tool [("retrieve_documents",
        fun _ => { outcome := .error "embedding service down", elapsed := 3 })]
      "retrieve_documents" (.obj []) =
      { success := false, data := .null, error := some "embedding service down",
        metadata := none, execution_time := 0 } :=
  use_tool_catches_exceptions
    [("retrieve_documents",
        fun _ => { outcome := .error "embedding service down", elapsed := 3 })]
    "retrieve_documents" (.obj []) _ "embedding service down" rfl rfl

/-- **C8 counterexample.** The claim that the failed `ToolResult` returned by
`use_tool` carries `execution_time` *equal to the elapsed time measured up to
the failure point* is false: for a tool whose `execute` raises after 3
(seconds of) elapsed time, the returned result has `execution_time = 0 ≠ 3`
(`use_tool` never reads the clock and leaves the field at its default). -/
theorem use_tool_elapsed_counterexample :
    (use_tool [("t", fun _ => { outcome := .error "boom", elapsed := 3 })]
        "t" (.obj [])).success = false ∧
    (use_tool [("t", fun _ => { outcome := .error "boom", elapsed := 3 })]
        "t" (.obj [])).error = some "boom" ∧
    (use_tool [("t", fun _ => { outcome := .error "boom", elapsed := 3 })]
        "t" (.obj [])).execution_time = 0 ∧
    ((fun (_ : JsonV) => { outcome := .error "boom", elapsed := 3 : ToolCallOutcome })
        (.obj [])).elapsed = 3 ∧
    (0 : ℚ) ≠ 3 := by
  refine ⟨rfl, rfl, rfl, rfl, ?_⟩
  norm_num

/-! ## ReAct response parser: embedding of `ReActAgent._parse_react_response`
(`react_agent.py` lines 414-464).

The two regexes `Thought:?(.*?)Action:?` and `Action:\s*(\w+)(?:\((.*?)\))?`
(both `IGNORECASE | DOTALL`) are implemented directly as character scans.
Neither pattern admits any backtracking beyond advancing the match start
(`\w+` cannot shrink in front of a literal that is not a word character,
`[^"\']+` cannot shrink in front of a quote), so the scans below are
equivalent to the Python engine on every input. -/

/-- Case-insensitive prefix test (pattern given lowercase). -/
def listStartsWithCI : List Char → List Char → Bool
  | [], _ => true
  | _ :: _, [] => false
  | p :: ps, c :: cs => p == c.toLower && listStartsWithCI ps cs

/-- Split at the first case-insensitive occurrence of `pat`: returns the
characters before it and the remainder starting at the occurrence. -/
def splitAtCI (pat : List Char) : List Char → Option (List Char × List Char)
  | [] => if pat.isEmpty then some ([], []) else none
  | c :: rest =>
      if listStartsWithCI pat (c :: rest) then some ([], c :: rest)
      else (splitAtCI pat rest).map (fun p => (c :: p.1, p.2))

/-- Characters strictly before the first occurrence of `ch`, when present. -/
def splitAtChar (ch : Char) : List Char → Option (List Char)
  | [] => none
  | c :: rest =>
      if c == ch then some []
      else (splitAtChar ch rest).map (fun l => c :: l)

/-- Python `str.strip()`. -/
def pyStrip (l : List Char) : List Char :=
  ((l.dropWhile Char.isWhitespace).reverse.dropWhile Char.isWhitespace).reverse

/-- Python regex `\s` (ASCII): space, tab, newline, carriage return, form
feed, vertical tab. -/
def pyIsSpace (c : Char) : Bool :=
  c == ' ' || c == '\t' || c == '\n' || c == '\r' ||
    c == Char.ofNat 11 || c == Char.ofNat 12

/-- Python regex `\w` (ASCII portion). -/
def pyIsWordChar (c : Char) : Bool :=
  c.isAlpha || c.isDigit || c == '_'

/-- The action regex `Action:\s*(\w+)(?:\((.*?)\))?`: scan for the first
position where `Action:` (case-insensitively) is followed by whitespace and
at least one word character; the optional lazy parenthesis group captures up
to the first `)`, and is skipped when `(` is absent or unclosed. -/
def findAction : List Char → Option (String × Option (List Char))
  | [] => none
  | c :: rest =>
      if listStartsWithCI "action:".toList (c :: rest) then
        let after := (c :: rest).drop 7
        let afterWs := after.dropWhile pyIsSpace
        let word := afterWs.takeWhile pyIsWordChar
        if word.isEmpty then findAction rest
        else
          let tailArgs := afterWs.drop word.length
          match tailArgs with
          | '(' :: r2 =>
              match splitAtChar ')' r2 with
              | some argsStr => some (⟨word⟩, some argsStr)
              | none => some (⟨word⟩, none)
          | _ => some (⟨word⟩, none)
      else findAction rest

/-- One step of the `key="value"` fallback scan
(`re.finditer(r'(\w+)\s*=\s*["\']([^"\']+)["\']', args_str)`): at the current
position, the match requires word characters, `=` (with optional surrounding
whitespace), an opening quote of either kind, one or more non-quote
characters, and a closing quote of either kind. -/
def kvMatchAt (cs : List Char) : Option (String × String × List Char) :=
  let word := cs.takeWhile pyIsWordChar
  if word.isEmpty then none
  else
    let r1 := (cs.drop word.length).dropWhile pyIsSpace
    match r1 with
    | '=' :: r2 =>
        match r2.dropWhile pyIsSpace with
        | q :: r3 =>
            if q == '"' || q == '\'' then
              let content := r3.takeWhile (fun ch => !(ch == '"' || ch == '\''))
              if content.isEmpty then none
              else
                match r3.drop content.length with
                | q2 :: r4 =>
                    if q2 == '"' || q2 == '\'' then some (⟨word⟩, ⟨content⟩, r4)
                    else none
                | [] => none
            else none
        | [] => none
    | _ => none

/-- `re.finditer` over the `key="value"` pattern: non-overlapping matches in
left-to-right order, advancing one character after a failed match attempt.
Fuel-indexed; every step consumes at least one character (a successful match
consumes the whole match, at least four characters), so fuel = input length
is always sufficient. -/
def scanKVAux : ℕ → List Char → List (String × String)
  | 0, _ => []
  | _ + 1, [] => []
  | fuel + 1, c :: rest =>
      match kvMatchAt (c :: rest) with
      | some (k, v, r) => (k, v) :: scanKVAux fuel r
      | none => scanKVAux fuel rest

/-- Entry point of `scanKVAux`. -/
def scanKV (l : List Char) : List (String × String) :=
  scanKVAux l.length l

/-- Python dict insertion `d[k] = v`: update in place or append. -/
def upsertStr : List (String × JsonV) → String → JsonV → List (String × JsonV)
  | [], k, v => [(k, v)]
  | (k0, v0) :: rest, k, v =>
      if k0 == k then (k0, v) :: rest else (k0, v0) :: upsertStr rest k v

/-- The argument parsing of `_parse_react_response`: `json.loads` of the
parenthesised text, falling back to the `key="value"` scan, defaulting to the
empty dict. -/
def parseArgs (argsStr : List Char) : JsonV :=
  if argsStr.isEmpty then .obj []
  else
    match jsonLoads ⟨argsStr⟩ with
    | some v => v
    | none => .obj ((scanKV argsStr).foldl (fun acc kv => upsertStr acc kv.1 (.str kv.2)) [])

/-- `ReActAgent._parse_react_response`: thought = text between `Thought:?`
and the first following `Action` (stripped), else the whole stripped reply;
action = tool name and argument value from the action regex, or `none`. -/
def parse_react_response (response : String) : String × Option (String × JsonV) :=
  let cs := response.toList
  let thought : String :=
    match splitAtCI "thought".toList cs with
    | some (_, fromT) =>
        let afterKw := fromT.drop 7
        let body := match afterKw with
          | ':' :: r => r
          | r => r
        match splitAtCI "action".toList body with
        | some (before, _) => ⟨pyStrip before⟩
        | none => ⟨pyStrip cs⟩
    | none => ⟨pyStrip cs⟩
  let action : Option (String × JsonV) :=
    match findAction cs with
    | none => none
    | some (tool, argsOpt) =>
        some (tool, parseArgs (argsOpt.getD []))
  (thought, action)

/-! ## ReAct reasoning loop: embedding of `ReActAgent.run`
(`react_agent.py` lines 84-379).

Collaborators: `llm i` is the reply of the i-th `llm_service.generate` call
of the loop (0-based; `generate` is assumed to return — a raising model call
is not the subject of any claim); `reflectFn`/`refineFn` are the injected
reflector's `reflect` and `reflect_and_refine` behaviours on this run
(`reflect_and_refine` is always invoked with `max_refinements=2`).  Wall
clock time and the prompt/transcript strings fed to `generate` are not
modelled (`execution_time` is reported as 0); logging and memory updates are
side effects with no bearing on the returned `AgentResponse`. -/

/-- `AgentAction` dataclass (`base_agent.py` lines 18-35). -/
structure AgentAction where
  tool_name : String
  tool_input : JsonV
  tool_output : Option ToolResult := none
  thought : Option String := none
  step : ℕ := 0
  deriving Repr

/-- `AgentResponse` dataclass (`base_agent.py` lines 38-57).  `answer` and
`confidence` are dynamically typed in Python (the answer can be any JSON
value taken from the parsed `answer` argument, the confidence any parsed
reflection score), hence `JsonV`. -/
structure AgentResponse where
  answer : JsonV
  actions : List AgentAction := []
  intermediate_steps : List String := []
  confidence : JsonV := .num 0
  metadata : List (String × JsonV) := []
  execution_time : ℚ := 0
  deriving Repr

/-- The mutable state of one `ReActAgent.run` invocation: the response under
construction plus the loop counter. -/
structure RunState where
  answer : JsonV
  actions : List AgentAction
  intermediate_steps : List String
  confidence : JsonV
  metadata : List (String × JsonV)
  iteration : ℕ
  deriving Repr

/-- Configuration of an embedded run. -/
structure RunCfg where
  max_iterations : ℕ
  enable_reflection : Bool
  has_reflector : Bool
  tools : List (String × ToolBehavior)
  collection : Option String

/-- Python truthiness of the `collection` argument (`None` and `""` falsy). -/
def collTruthy (c : Option String) : Bool :=
  match c with
  | some s => !s.isEmpty
  | none => false

/-- Line 180 of `react_agent.py`:
`final_answer = action.get("args", {}).get("answer", llm_response)`.
When no action was parsed, `action` is `None` and `None.get` raises
`AttributeError`; when the parsed argument value is not a dict (a bare JSON
string, number, array or `null` from `json.loads`), its `.get` raises
`AttributeError` as well. -/
def answer_from_action (action : Option (String × JsonV)) (llm_response : String) :
    Except PyErr JsonV :=
  match action with
  | none => .error .attributeError
  | some (_, args) =>
      match args with
      | .obj fields => .ok (JsonV.getD fields "answer" (.str llm_response))
      | _ => .error .attributeError

/-- Lines 191-196 of `react_agent.py`: collect `documents` from the data of
each successful recorded tool call.  `data.get` raises `AttributeError` when
a successful tool supplied a non-dict payload, and `extend` raises
`TypeError` on a non-iterable `documents` value (iterating a string yields
its characters, a dict its keys). -/
def collectDocs (actions : List AgentAction) : Except PyErr (List JsonV) :=
  actions.foldlM (fun acc act =>
    match act.tool_output with
    | some tr =>
        if tr.success then
          match tr.data with
          | .obj fields =>
              match JsonV.getD fields "documents" (.arr []) with
              | .arr xs => .ok (acc ++ xs)
              | .str s => .ok (acc ++ s.toList.map (fun ch => .str ⟨[ch]⟩))
              | .obj fs => .ok (acc ++ fs.map (fun kv => .str kv.1))
              | _ => .error .typeError
          | _ => .error .attributeError
        else .ok acc
    | none => .ok acc) []

/-- `ToolResult.to_string` feeds only the transcript and the
`"Observation …"` intermediate-step strings; its exact `json.dumps(indent=2)`
rendering is immaterial to every claim and is abbreviated here to the status
tag. -/
def toolResultToString (r : ToolResult) : String :=
  if r.success then "\x7b\"status\": \"success\", ...\x7d" else "\x7b\"status\": \"error\", ...\x7d"

/-- Lines 177-261 of `react_agent.py`: the terminate branch.  Extract the
final answer (possibly raising, see `answer_from_action`); with reflection
enabled, reflect (storing the record in the *current* metadata dict), refine
when requested (storing the refinement record and the fresh score), else
keep the answer with the reflection score; without reflection use the 0.8
default confidence.  The `true` flag is the `break`; any raise propagates. -/
def terminationStep (cfg : RunCfg)
    (reflectFn : JsonV → List JsonV → Except PyErr ReflectionResult)
    (refineFn : JsonV → List JsonV → Except PyErr (String × ReflectionResult))
    (action : Option (String × JsonV)) (llm_response : String)
    (stBase : RunState) : Except PyErr (RunState × Bool) :=
  match answer_from_action action llm_response with
  | .error e => .error e
  | .ok final_answer =>
      if cfg.enable_reflection && cfg.has_reflector then
        match collectDocs stBase.actions with
        | .error e => .error e
        | .ok docs =>
            match reflectFn final_answer docs with
            | .error e => .error e
            | .ok reflection =>
                if reflection.should_refine then
                  match refineFn final_answer docs with
                  | .error e => .error e
                  | .ok rr =>
                      .ok ({ stBase with
                        answer := .str rr.1,
                        metadata := upsertStr
                          (upsertStr stBase.metadata "reflection" reflection.to_dict)
                          "refinement" (.obj
                            [("original_answer", final_answer),
                             ("refined_answer", .str rr.1),
                             ("final_reflection", rr.2.to_dict)]),
                        confidence := rr.2.overall_score }, true)
                else
                  .ok ({ stBase with
                    answer := final_answer,
                    metadata := upsertStr stBase.metadata "reflection" reflection.to_dict,
                    confidence := reflection.overall_score }, true)
      else
        .ok ({ stBase with answer := final_answer, confidence := .num (4/5) }, true)

/-- The `tool_args` mutation of lines 267-269: inject the run collection for
`retrieve_documents` when truthy and absent. -/
def adjustArgs (cfg : RunCfg) (tool_name : String)
    (fields : List (String × JsonV)) : List (String × JsonV) :=
  if collTruthy cfg.collection && (JsonV.get? fields "collection").isNone
      && tool_name == "retrieve_documents" then
    fields ++ [("collection", .str (cfg.collection.getD ""))]
  else fields

/-- Lines 282-329: record the `AgentAction` and the (truncated) observation
string on the response under construction. -/
def recordToolCall (stBase : RunState) (tool_name : String)
    (fields : List (String × JsonV)) (tool_result : ToolResult)
    (thought : String) (iteration : ℕ) : RunState :=
  { stBase with
    actions := stBase.actions ++
      [{ tool_name := tool_name, tool_input := .obj fields,
         tool_output := some tool_result, thought := some thought,
         step := iteration }],
    intermediate_steps := stBase.intermediate_steps ++
      ["Observation " ++ toString iteration ++ ": " ++
        (⟨(toolResultToString tool_result).toList.take 200⟩ : String)] }

/-- Lines 263-338 of `react_agent.py`: the dispatch branch.  A non-dict
argument value raises `TypeError` (at the `"collection" not in tool_args`
containment test or at `**tool_args` unpacking); otherwise the tool is
dispatched through `use_tool` and the call is recorded.  The `false` flag
means the loop continues. -/
def toolStep (cfg : RunCfg) (tool_name : String) (args0 : JsonV)
    (thought : String) (iteration : ℕ) (stBase : RunState) :
    Except PyErr (RunState × Bool) :=
  match args0 with
  | .obj fields =>
      .ok (recordToolCall stBase tool_name (adjustArgs cfg tool_name fields)
        (use_tool cfg.tools tool_name (.obj (adjustArgs cfg tool_name fields)))
        thought iteration, false)
  | _ => .error .typeError

/-- Lines 134-175: advance the iteration counter and append the
`"Thought …"` intermediate step. -/
def advanceState (st : RunState) (iteration : ℕ) (thought : String) : RunState :=
  { st with
    iteration := iteration,
    intermediate_steps := st.intermediate_steps ++
      ["Thought " ++ toString iteration ++ ": " ++ thought] }

/-- One iteration of the `while iteration < self.max_iterations:` loop:
generate, parse, record the thought, then terminate or dispatch. -/
def runStep (cfg : RunCfg) (llm : ℕ → String)
    (reflectFn : JsonV → List JsonV → Except PyErr ReflectionResult)
    (refineFn : JsonV → List JsonV → Except PyErr (String × ReflectionResult))
    (st : RunState) : Except PyErr (RunState × Bool) :=
  match parse_react_response (llm st.iteration) with
  | (thought, none) =>
      terminationStep cfg reflectFn refineFn none (llm st.iteration)
        (advanceState st (st.iteration + 1) thought)
  | (thought, some (t, args)) =>
      if t == "Answer" then
        terminationStep cfg reflectFn refineFn (some (t, args)) (llm st.iteration)
          (advanceState st (st.iteration + 1) thought)
      else
        toolStep cfg t args thought (st.iteration + 1)
          (advanceState st (st.iteration + 1) thought)

/-- The ReAct loop: iterate `runStep` until the iteration budget is exhausted
or a step signals termination (`break`). -/
def runLoop (cfg : RunCfg) (llm : ℕ → String)
    (reflectFn : JsonV → List JsonV → Except PyErr ReflectionResult)
    (refineFn : JsonV → List JsonV → Except PyErr (String × ReflectionResult)) :
    ℕ → RunState → Except PyErr RunState
  | 0, st => .ok st
  | fuel + 1, st =>
      match runStep cfg llm reflectFn refineFn st with
      | .error e => .error e
      | .ok (st', true) => .ok st'
      | .ok (st', false) => runLoop cfg llm reflectFn refineFn fuel st'

/-- `ReActAgent.run`: run the loop from the fresh `AgentResponse(answer="")`,
then (lines 340-347) *reassign* `response.metadata` to the four-key summary
dict — discarding any reflection/refinement records stored during the loop —
and return the response. -/
def run (cfg : RunCfg) (llm : ℕ → String)
    (reflectFn : JsonV → List JsonV → Except PyErr ReflectionResult)
    (refineFn : JsonV → List JsonV → Except PyErr (String × ReflectionResult))
    (query : String) : Except PyErr AgentResponse :=
  match runLoop cfg llm reflectFn refineFn cfg.max_iterations
      { answer := .str "", actions := [], intermediate_steps := [],
        confidence := .num 0, metadata := [], iteration := 0 } with
  | .error e => .error e
  | .ok st =>
      .ok { answer := st.answer, actions := st.actions,
            intermediate_steps := st.intermediate_steps,
            confidence := st.confidence,
            metadata := [("iterations", .num (st.iteration : ℚ)),
                         ("tools_used", .arr (st.actions.map (fun a2 => .str a2.tool_name))),
                         ("collection", match cfg.collection with
                           | some c => .str c
                           | none => .null),
                         ("query_length", .num (query.length : ℚ))],
            execution_time := 0 }

/-! ### ReAct loop theorems -/

/-- Any successful `terminationStep` signals `break` and does not advance the
iteration counter or action list beyond `stBase`. -/
theorem terminationStep_result {cfg : RunCfg}
    {rf1 : JsonV → List JsonV → Except PyErr ReflectionResult}
    {rf2 : JsonV → List JsonV → Except PyErr (String × ReflectionResult)}
    {action : Option (String × JsonV)} {resp : String} {stBase : RunState}
    {p : RunState × Bool}
    (h : terminationStep cfg rf1 rf2 action resp stBase = .ok p) :
    p.2 = true ∧ p.1.iteration = stBase.iteration := by
  unfold terminationStep at h
  split at h
  · cases h
  · split at h
    · split at h
      · cases h
      · split at h
        · cases h
        · split at h
          · split at h
            · cases h
            · cases h
              exact ⟨rfl, rfl⟩
          · cases h
            exact ⟨rfl, rfl⟩
    · cases h
      exact ⟨rfl, rfl⟩

/-- Any successful `toolStep` continues the loop and leaves the answer,
confidence and iteration counter of `stBase` unchanged. -/
theorem toolStep_result {cfg : RunCfg} {tool_name : String} {args0 : JsonV}
    {thought : String} {iteration : ℕ} {stBase : RunState} {p : RunState × Bool}
    (h : toolStep cfg tool_name args0 thought iteration stBase = .ok p) :
    p.2 = false ∧ p.1.answer = stBase.answer ∧ p.1.confidence = stBase.confidence ∧
      p.1.iteration = stBase.iteration := by
  unfold toolStep at h
  split at h
  · cases h
    exact ⟨rfl, rfl, rfl, rfl⟩
  · cases h

/-- Any successful `runStep` advances the iteration counter by exactly one. -/
theorem runStep_iteration {cfg : RunCfg} {llm : ℕ → String}
    {rf1 : JsonV → List JsonV → Except PyErr ReflectionResult}
    {rf2 : JsonV → List JsonV → Except PyErr (String × ReflectionResult)}
    {st : RunState} {p : RunState × Bool}
    (h : runStep cfg llm rf1 rf2 st = .ok p) :
    p.1.iteration = st.iteration + 1 := by
  unfold runStep at h
  split at h
  · exact (terminationStep_result h).2
  · split at h
    · exact (terminationStep_result h).2
    · exact (toolStep_result h).2.2.2

/-- The model reply parses to a real (non-`"Answer"`) action. -/
def nontrivialAction (s : String) : Prop :=
  ∃ t args, (parse_react_response s).2 = some (t, args) ∧ t ≠ "Answer"

/-- When the reply parses to a real action, a successful `runStep` continues
the loop and leaves answer and confidence untouched. -/
theorem runStep_nontrivial {cfg : RunCfg} {llm : ℕ → String}
    {rf1 : JsonV → List JsonV → Except PyErr ReflectionResult}
    {rf2 : JsonV → List JsonV → Except PyErr (String × ReflectionResult)}
    {st : RunState} {p : RunState × Bool}
    (hnt : nontrivialAction (llm st.iteration))
    (h : runStep cfg llm rf1 rf2 st = .ok p) :
    p.2 = false ∧ p.1.answer = st.answer ∧ p.1.confidence = st.confidence := by
  obtain ⟨t, args, hparse, hne⟩ := hnt
  unfold runStep at h
  split at h
  next thought heq =>
    rw [heq] at hparse
    cases hparse
  next thought t' args' heq =>
    rw [heq] at hparse
    have hparse' : some (t', args') = some (t, args) := hparse
    injection hparse' with hpa
    rw [Prod.mk.injEq] at hpa
    obtain ⟨ht, ha⟩ := hpa
    subst ht
    rw [if_neg (by simp only [beq_iff_eq]; exact hne)] at h
    have hts := toolStep_result h
    exact ⟨hts.1, hts.2.1, hts.2.2.1⟩

/-- The loop advances the iteration counter by at most its fuel. -/
theorem runLoop_iteration_le {cfg : RunCfg} {llm : ℕ → String}
    {rf1 : JsonV → List JsonV → Except PyErr ReflectionResult}
    {rf2 : JsonV → List JsonV → Except PyErr (String × ReflectionResult)} :
    ∀ (fuel : ℕ) (st st' : RunState),
      runLoop cfg llm rf1 rf2 fuel st = .ok st' →
      st'.iteration ≤ st.iteration + fuel := by
  intro fuel
  induction fuel with
  | zero =>
      intro st st' h
      rw [runLoop] at h
      cases h
      omega
  | succ n ih =>
      intro st st' h
      rw [runLoop] at h
      split at h
      · cases h
      next st'' heq =>
        have h1 : st''.iteration = st.iteration + 1 := runStep_iteration heq
        cases h
        omega
      next st'' heq =>
        have h1 : st''.iteration = st.iteration + 1 := runStep_iteration heq
        have h2 := ih _ _ h
        omega

/-- If every reply within the budget parses to a real action, the loop
exhausts its fuel without ever touching the answer or the confidence. -/
theorem runLoop_exhaust {cfg : RunCfg} {llm : ℕ → String}
    {rf1 : JsonV → List JsonV → Except PyErr ReflectionResult}
    {rf2 : JsonV → List JsonV → Except PyErr (String × ReflectionResult)} :
    ∀ (fuel : ℕ) (st st' : RunState),
      (∀ i, st.iteration ≤ i → i < st.iteration + fuel → nontrivialAction (llm i)) →
      runLoop cfg llm rf1 rf2 fuel st = .ok st' →
      st'.answer = st.answer ∧ st'.confidence = st.confidence := by
  intro fuel
  induction fuel with
  | zero =>
      intro st st' _ h
      rw [runLoop] at h
      cases h
      exact ⟨rfl, rfl⟩
  | succ n ih =>
      intro st st' hall h
      rw [runLoop] at h
      have hnt : nontrivialAction (llm st.iteration) :=
        hall st.iteration (le_refl _) (by omega)
      split at h
      · cases h
      next st'' heq =>
        have hfalse : (st'', true).2 = false := (runStep_nontrivial hnt heq).1
        cases hfalse
      next st'' heq =>
        have hpres := runStep_nontrivial hnt heq
        have ha1 : st''.answer = st.answer := hpres.2.1
        have hc1 : st''.confidence = st.confidence := hpres.2.2
        have hit : st''.iteration = st.iteration + 1 := runStep_iteration heq
        have hall' : ∀ i, st''.iteration ≤ i → i < st''.iteration + n →
            nontrivialAction (llm i) := by
          intro i h1 h2
          exact hall i (by omega) (by omega)
        obtain ⟨ha, hc⟩ := ih _ _ hall' h
        exact ⟨ha.trans ha1, hc.trans hc1⟩

/-- A run configuration with reflection disabled and no tools. -/
def cfgNoReflection : RunCfg :=
  { max_iterations := 3, enable_reflection := false, has_reflector := false,
    tools := [], collection := none }

/-- A run configuration with reflection enabled and no tools. -/
def cfgReflection : RunCfg :=
  { max_iterations := 3, enable_reflection := true, has_reflector := true,
    tools := [], collection := none }

/-- A reflector behaviour that is never reached in the runs using it. -/
def reflectUnused : JsonV → List JsonV → Except PyErr ReflectionResult :=
  fun _ _ => .error (.agentError "unused")

/-- A refinement behaviour that is never reached in the runs using it. -/
def refineUnused : JsonV → List JsonV → Except PyErr (String × ReflectionResult) :=
  fun _ _ => .error (.agentError "unused")

/-- A reflection outcome that accepts the answer (score 0.9). -/
def reflAccept : ReflectionResult :=
  { overall_score := .num (9/10), criterion_scores := .obj [],
    feedback := .str "good", issues := .arr [], suggestions := .arr [],
    should_refine := false }

/-- A reflection outcome that requests refinement (score 0.4). -/
def reflReject : ReflectionResult :=
  { overall_score := .num (2/5), criterion_scores := .obj [],
    feedback := .str "weak", issues := .arr [], suggestions := .arr [],
    should_refine := true }

/-- A refinement behaviour producing a rewritten answer accepted at 0.9. -/
def refineConst : JsonV → List JsonV → Except PyErr (String × ReflectionResult) :=
  fun _ _ => .ok ("Paris is the capital of France.", reflAccept)

/-- A tool that always succeeds with an empty document list. -/
def behLookup : ToolBehavior := fun _ =>
  { outcome := .ok { success := true, data := .obj [("documents", .arr [])] },
    elapsed := 0 }

/-- A 2-iteration configuration with the `lookup` tool registered. -/
def cfgTool : RunCfg :=
  { max_iterations := 2, enable_reflection := false, has_reflector := false,
    tools := [("lookup", behLookup)], collection := none }

/-- A model trace that keeps invoking the `lookup` tool. -/
def llmLookup : ℕ → String :=
  fun _ => "Thought: still searching\nAction: lookup(query=\"x\")"

/-- **C1 (code bug).** Line 180 of `react_agent.py`
(`action.get("args", {}).get("answer", llm_response)`) is reached with
`action = None` whenever the reply contains no parsable action, and
`None.get` raises `AttributeError`: the "treat the whole output as the final
answer" fallback promised by the spec is unreachable on exactly the inputs it
was written for.  The fallback works only when an `Answer` action *was*
parsed: with an `answer` argument the answer is that argument, without one it
is the whole raw reply. -/
theorem react_termination_attribute_error :
    (parse_react_response "I cannot determine the answer from the provided context.").2
      = none ∧
    run cfgNoReflection
        (fun _ => "I cannot determine the answer from the provided context.")
        reflectUnused refineUnused "q" = .error .attributeError ∧
    (run cfgNoReflection (fun _ => "Thought: done\nAction: Answer(answer=\"Paris\")")
        reflectUnused refineUnused "q").map (fun r => (r.answer, r.confidence))
      = .ok (.str "Paris", .num (4/5)) ∧
    (run cfgNoReflection (fun _ => "Thought: x\nAction: Answer")
        reflectUnused refineUnused "q").map (fun r => r.answer)
      = .ok (.str "Thought: x\nAction: Answer") :=
  ⟨rfl, rfl, rfl, rfl⟩

/-- **C2 (code bug).** Lines 342-347 of `react_agent.py` *reassign*
`response.metadata` after the loop, so the reflection record stored at line
213 (and the refinement record stored at line 241) never reaches the
returned `AgentResponse`: after a run in which reflection demonstrably ran
(the returned confidence is the reflection score), the metadata holds
exactly `iterations`, `tools_used`, `collection`, `query_length` and no
`reflection`/`refinement` keys. -/
theorem react_metadata_overwritten :
    (∃ resp, run cfgReflection
        (fun _ => "Thought: done\nAction: Answer(answer=\"Paris\")")
        (fun _ _ => .ok reflAccept) refineUnused "q" = .ok resp ∧
      resp.confidence = .num (9/10) ∧
      (resp.metadata.find? (fun kv => kv.1 == "reflection")).isNone = true ∧
      (resp.metadata.find? (fun kv => kv.1 == "refinement")).isNone = true ∧
      resp.metadata.map Prod.fst =
        ["iterations", "tools_used", "collection", "query_length"]) ∧
    (∃ resp, run cfgReflection
        (fun _ => "Thought: done\nAction: Answer(answer=\"Paris\")")
        (fun _ _ => .ok reflReject) refineConst "q" = .ok resp ∧
      resp.answer = .str "Paris is the capital of France." ∧
      resp.confidence = .num (9/10) ∧
      (resp.metadata.find? (fun kv => kv.1 == "reflection")).isNone = true ∧
      (resp.metadata.find? (fun kv => kv.1 == "refinement")).isNone = true) :=
  ⟨⟨_, rfl, rfl, rfl, rfl, rfl⟩, ⟨_, rfl, rfl, rfl, rfl, rfl⟩⟩

/-- **C3 (amended).** The loop performs at most `max_iterations` iterations
and the reported `metadata["iterations"]` never exceeds the budget; when the
budget is exhausted without reaching the answer branch, the returned answer
is the *empty string* — the untouched `AgentResponse(answer="")` initial
value, not the last raw model text — and the confidence is the dataclass
default `0.0`. -/
theorem run_budget_spec :
    ∀ (cfg : RunCfg) (llm : ℕ → String)
      (rf1 : JsonV → List JsonV → Except PyErr ReflectionResult)
      (rf2 : JsonV → List JsonV → Except PyErr (String × ReflectionResult))
      (query : String) (resp : AgentResponse),
      run cfg llm rf1 rf2 query = .ok resp →
      (∃ n : ℕ, n ≤ cfg.max_iterations ∧
        resp.metadata.find? (fun kv => kv.1 == "iterations") =
          some ("iterations", .num (n : ℚ))) ∧
      ((∀ i, i < cfg.max_iterations → nontrivialAction (llm i)) →
        resp.answer = .str "" ∧ resp.confidence = .num 0) := by
  intro cfg llm rf1 rf2 query resp h
  unfold run at h
  split at h
  · cases h
  next st heq =>
    cases h
    constructor
    · refine ⟨st.iteration, ?_, rfl⟩
      have := runLoop_iteration_le cfg.max_iterations _ _ heq
      simpa using this
    · intro hall
      have hax := runLoop_exhaust cfg.max_iterations
        { answer := .str "", actions := [], intermediate_steps := [],
          confidence := .num 0, metadata := [], iteration := 0 } st
        (fun i _ h2 => hall i (by simpa using h2)) heq
      exact ⟨hax.1, hax.2⟩

/-- Witness for `run_budget_spec`: the 2-iteration `lookup` run — every reply
parses to a real `lookup` action, the loop exhausts the budget, and the
returned response reports 2 iterations with the empty answer and zero
confidence. -/
theorem run_budget_spec_witness :
    ∃ resp, run cfgTool llmLookup reflectUnused refineUnused "q" = .ok resp ∧
      (∃ n : ℕ, n ≤ 2 ∧
        resp.metadata.find? (fun kv => kv.1 == "iterations") =
          some ("iterations", .num (n : ℚ))) ∧
      (resp.answer = .str "" ∧ resp.confidence = .num 0) := by
  refine ⟨_, rfl, ?_⟩
  have h := run_budget_spec cfgTool llmLookup reflectUnused refineUnused "q" _ rfl
  refine ⟨h.1, h.2 ?_⟩
  intro i _
  exact ⟨"lookup", .obj [("query", .str "x")], rfl, by decide⟩

/-- **C3 counterexample.** In the exhausted `lookup` run the last raw model
text is nonempty, yet the returned answer is the empty string — so "the
answer equals the last raw model text" is false. -/
theorem run_budget_answer_counterexample :
    ∃ resp, run cfgTool llmLookup reflectUnused refineUnused "q" = .ok resp ∧
      resp.answer = .str "" ∧ resp.confidence = .num 0 ∧
      resp.metadata.find? (fun kv => kv.1 == "iterations") =
        some ("iterations", .num ((2 : ℕ) : ℚ)) ∧
      llmLookup 1 ≠ "" ∧ resp.answer ≠ .str (llmLookup 1) := by
  refine ⟨_, rfl, rfl, rfl, rfl, by decide, ?_⟩
  intro hcontra
  have h2 : JsonV.str "" = JsonV.str (llmLookup 1) := hcontra
  injection h2 with h3
  exact absurd h3 (by decide)
